import Mathlib

/-!
# rig: the IP + UDP + DNS packet encoder of `src/c2.c`

A shallow embedding of `checksum`, `encodeFullPacket`, `sendRawPacket` and the
run loop of `main`, followed by theorems about the wire image they produce.

Platform conventions of the embedding (the Linux ABI the source is written
for, on a little-endian host such as x86-64 or AArch64):

* memory is a list of bytes, one `Nat` below 256 per `uint8_t` cell;
* a `uint16_t` assigned through a struct overlay occupies its low byte first,
  and `htons` swaps the two bytes of its argument;
* `sizeof(struct iphdr) = 20`, `sizeof(struct udphdr) = 8`, the pseudo header
  is 12 bytes, `uint32_t` arithmetic wraps modulo `2^32`;
* a `std::string` is the list of its bytes.

A store outside `dnsBuffer` is undefined behaviour in the source; the embedding
stops there with `Exec.outOfBounds`. The label loop runs on a fuel of hostname
length plus one, which the theorems show is never exhausted. What the
operating system and the random generators decide (the result of `socket`,
`setsockopt` and `sendto`, the random label, query id and server pick) enters
the embedding as an input.
-/

namespace Rig

/-! ## Bytes, strings and byte order -/

/-- The bytes of a string literal, one number per character. -/
def str (s : String) : List Nat := s.toList.map Char.toNat

/-- The byte value of the character `'.'`. -/
def DOT : Nat := 46

/-- `htons` on the little-endian host: exchange the two bytes of a `uint16_t`. -/
def htons (x : Nat) : Nat := (x % 256) * 256 + (x / 256) % 256

/-- Memory image of a `uint16_t` assigned through a struct overlay (host order:
low byte first). -/
def store16 (v : Nat) : List Nat := [v % 256, (v / 256) % 256]

/-- A `uint16_t` load in host order from offset `off`. -/
def load16 (m : List Nat) (off : Nat) : Nat := m.getD off 0 + 256 * m.getD (off + 1) 0

/-- A 16-bit field read in network byte order (high byte first), as a receiver
of the wire image reads it. -/
def net16 (m : List Nat) (off : Nat) : Nat := 256 * m.getD off 0 + m.getD (off + 1) 0

/-- Overwrite the cells `off .. off + bs.length` of `m` with `bs`: a field
store through an overlay pointer, or a `memcpy`. -/
def writeAt (m : List Nat) (off : Nat) (bs : List Nat) : List Nat :=
  m.take off ++ bs ++ m.drop (off + bs.length)

/-- The cells `off .. off + len` of `m`. -/
def slice (m : List Nat) (off len : Nat) : List Nat := (m.drop off).take len

/-! ## `checksum` -/

/-- The summation loop of `checksum` together with the odd trailing byte:
`while (len > 1) { sum += *buf++; len -= 2; } if (len == 1) sum += *(uint8_t*)buf;`
with `sum` a `uint32_t`. -/
def sumLoop : List Nat → Nat → Nat
  | b0 :: b1 :: rest, sum => sumLoop rest ((sum + (b0 + 256 * b1)) % 4294967296)
  | [b], sum => (sum + b) % 4294967296
  | [], sum => sum

/-- The value of `sum` after the two folding statements of `checksum`:
`sum = (sum >> 16) + (sum & 0xFFFF); sum += (sum >> 16);`. -/
def foldedSum (buf : List Nat) : Nat :=
  let sum := sumLoop buf 0
  let sum := (sum / 65536 + sum % 65536) % 4294967296
  (sum + sum / 65536) % 4294967296

/-- `uint16_t checksum(const uint16_t* buf, int len)` over the `len` bytes
`buf`: `return ~sum` truncated to 16 bits. -/
def checksum (buf : List Nat) : Nat :=
  (4294967295 - foldedSum buf) % 65536

/-! ## The DNS buffer -/

/-- Outcome of running a piece of the program. -/
inductive Exec (α : Type) where
  /-- normal completion -/
  | ok : α → Exec α
  /-- a store outside `dnsBuffer` (undefined behaviour in the source) -/
  | outOfBounds : Exec α
  /-- the loop bound of the embedding was exhausted -/
  | outOfFuel : Exec α
  deriving DecidableEq, Repr

/-- Sequencing of `Exec`. -/
def Exec.bind {α β : Type} (x : Exec α) (f : α → Exec β) : Exec β :=
  match x with
  | .ok a => f a
  | .outOfBounds => .outOfBounds
  | .outOfFuel => .outOfFuel

/-- `std::array<uint8_t, 512> dnsBuffer` with the write position `dnsPos`. -/
structure DnsBuffer where
  cells : List Nat
  dnsPos : Nat
  deriving DecidableEq, Repr

/-- A zero-initialised buffer of `cap` cells with `dnsPos = 0`. -/
def DnsBuffer.zeroed (cap : Nat) : DnsBuffer := ⟨List.replicate cap 0, 0⟩

/-- `std::array<uint8_t, 512> dnsBuffer{}; size_t dnsPos = 0;`. -/
def DnsBuffer.init : DnsBuffer := DnsBuffer.zeroed 512

/-- `dnsBuffer[dnsPos++] = static_cast<uint8_t>(v)`. -/
def put (b : DnsBuffer) (v : Nat) : Exec DnsBuffer :=
  if b.dnsPos < b.cells.length then
    .ok ⟨b.cells.set b.dnsPos (v % 256), b.dnsPos + 1⟩
  else .outOfBounds

/-- A run of consecutive `dnsBuffer[dnsPos++] = ...` stores. -/
def putAll (b : DnsBuffer) : List Nat → Exec DnsBuffer
  | [] => .ok b
  | v :: vs => (put b v).bind (fun b1 => putAll b1 vs)

/-- `std::string::find(c)`: index of the first occurrence, `none` for `npos`. -/
def find : List Nat → Nat → Option Nat
  | [], _ => none
  | x :: xs, c => if x = c then some 0 else (find xs c).map (· + 1)

/-- The label loop of `encodeFullPacket`:
`while ((dot_pos = hostname.find('.')) != npos) { ... hostname = hostname.substr(dot_pos + 1); }`.
Returns the remaining `hostname` and the buffer. -/
def labelLoop : Nat → List Nat → DnsBuffer → Exec (List Nat × DnsBuffer)
  | 0, _, _ => .outOfFuel
  | fuel + 1, hostname, b =>
    match find hostname DOT with
    | none => .ok (hostname, b)
    | some dot_pos =>
      (put b dot_pos).bind fun b1 =>
      (putAll b1 (hostname.take dot_pos)).bind fun b2 =>
      labelLoop fuel (hostname.drop (dot_pos + 1)) b2

/-- `struct DNSQuery`. -/
structure DNSQuery where
  type : List Nat
  hostname : List Nat
  queryId : Nat
  deriving DecidableEq, Repr

/-- The stores of the DNS part of `encodeFullPacket` (source lines 79 to 109)
into the buffer `b0`: the buffer after the last store. -/
def encodeDnsIn (b0 : DnsBuffer) (query : DNSQuery) : Exec DnsBuffer :=
  (putAll b0
    [(query.queryId / 256) % 256, query.queryId % 256,
     0x01, 0x00, 0x00, 0x01, 0x00, 0x00, 0x00, 0x00, 0x00, 0x00]).bind fun b =>
  (labelLoop (query.hostname.length + 1) query.hostname b).bind fun r =>
  (put r.2 r.1.length).bind fun b1 =>
  (putAll b1 r.1).bind fun b2 =>
  putAll b2 [0x00, 0x00, 0x01, 0x00, 0x01]

/-- The DNS part of `encodeFullPacket` (source lines 77 to 110) on the
512-byte `dnsBuffer`; `dnsLen` is the `dnsPos` of the result. -/
def encodeDns (query : DNSQuery) : Exec DnsBuffer :=
  encodeDnsIn DnsBuffer.init query

/-! ## `inet_pton` -/

/-- The scanning loop of the C library's `inet_pton(AF_INET, ...)`: `tmp` is
the four-byte result under construction, `tp` the index of the octet being
read. Dotted decimal, four octets of at most 255, no leading zero. -/
def inet_pton4 : List Nat → List Nat → Nat → Bool → Nat → Option (List Nat)
  | [], tmp, _, _, octets => if octets < 4 then none else some tmp
  | ch :: src, tmp, tp, saw_digit, octets =>
    if ch = 0 then (if octets < 4 then none else some tmp)
    else if 48 ≤ ch ∧ ch ≤ 57 then
      let new := tmp.getD tp 0 * 10 + (ch - 48)
      if saw_digit = true ∧ tmp.getD tp 0 = 0 then none
      else if new > 255 then none
      else if saw_digit = false then
        (if octets + 1 > 4 then none
         else inet_pton4 src (tmp.set tp new) tp true (octets + 1))
      else inet_pton4 src (tmp.set tp new) tp true octets
    else if ch = DOT ∧ saw_digit = true then
      (if octets = 4 then none
       else inet_pton4 src (tmp.set (tp + 1) 0) (tp + 1) false octets)
    else none

/-- `inet_pton(AF_INET, s.c_str(), dst)`: the four bytes stored at `dst` (in
network order), or `none` when the text is rejected and `dst` is left alone. -/
def inet_pton (s : List Nat) : Option (List Nat) :=
  inet_pton4 s [0, 0, 0, 0] 0 false 0

/-- `inet_pton(AF_INET, ip.c_str(), m + off)` as a memory update. -/
def storeAddr (m : List Nat) (off : Nat) (ip : List Nat) : List Nat :=
  match inet_pton ip with
  | some a => writeAt m off a
  | none => m

/-! ## `encodeFullPacket` -/

/-- What `encodeFullPacket` leaves behind: the returned `packet` array and the
local `dnsLen`. -/
structure Encoded where
  packet : List Nat
  dnsLen : Nat
  deriving DecidableEq, Repr

/-- The IP header stores of `encodeFullPacket` (source lines 113 to 124) on
the zeroed `packet`. -/
def fillIp (packet : List Nat) (dnsLen : Nat) (srcIP dstIP : List Nat) : List Nat :=
  let p := writeAt packet 0 [4 * 16 + 5]
  let p := writeAt p 1 [0]
  let p := writeAt p 2 (store16 ((20 + 8 + dnsLen) % 65536))
  let p := writeAt p 4 (store16 (htons 54321))
  let p := writeAt p 6 (store16 0)
  let p := writeAt p 8 [255]
  let p := writeAt p 9 [17]
  let p := writeAt p 10 (store16 0)
  let p := storeAddr p 12 srcIP
  storeAddr p 16 dstIP

/-- The UDP header stores of `encodeFullPacket` (source lines 128 to 132). -/
def fillUdp (p : List Nat) (dnsLen srcPort dstPort : Nat) : List Nat :=
  let p := writeAt p 20 (store16 (htons srcPort))
  let p := writeAt p 22 (store16 (htons dstPort))
  let p := writeAt p 24 (store16 (htons (8 + dnsLen)))
  writeAt p 26 (store16 0)

/-- The scratch buffer `checkBuf` of `encodeFullPacket` (source lines 142 to
156): the pseudo header followed by the UDP header and the DNS message. -/
def checkBuf (p : List Nat) (dnsLen : Nat) : List Nat :=
  let pseudo_hdr := slice p 12 4 ++ slice p 16 4 ++ [0, 17] ++ slice p 24 2
  let c := writeAt (List.replicate 1024 0) 0 pseudo_hdr
  writeAt c 12 (slice p 20 (8 + dnsLen))

/-- The packet assembly of `encodeFullPacket` (source lines 112 to 159) for a
DNS buffer holding `dnsLen` message bytes. -/
def assemble (dns : List Nat) (dnsLen : Nat) (srcIP : List Nat) (srcPort : Nat)
    (dstIP : List Nat) (dstPort : Nat) : List Nat :=
  let p := fillIp (List.replicate 1024 0) dnsLen srcIP dstIP
  let p := fillUdp p dnsLen srcPort dstPort
  let p := writeAt p 28 (dns.take dnsLen)
  let p := writeAt p 10 (store16 (checksum (slice p 0 20)))
  writeAt p 26 (store16 (checksum (slice (checkBuf p dnsLen) 0 (12 + 8 + dnsLen))))

/-- `encodeFullPacket(query, srcIP, srcPort, dstIP, dstPort)`. -/
def encodeFullPacket (query : DNSQuery) (srcIP : List Nat) (srcPort : Nat)
    (dstIP : List Nat) (dstPort : Nat) : Exec Encoded :=
  (encodeDns query).bind fun b =>
    .ok ⟨assemble b.cells b.dnsPos srcIP srcPort dstIP dstPort, b.dnsPos⟩

/-- Query and endpoints of scenario A. -/
def scenarioA : Exec Encoded :=
  encodeFullPacket ⟨str "A", str "abc123xyz9.google.com", 0x1234⟩
    (str "1.2.3.4") 23837 (str "8.8.8.8") 53

/-- The run completed normally with a result satisfying `p`. -/
def okAnd {α : Type} (x : Exec α) (p : α → Prop) : Prop :=
  match x with
  | .ok a => p a
  | .outOfBounds => False
  | .outOfFuel => False

instance okAndDecidable {α : Type} (x : Exec α) (p : α → Prop) [DecidablePred p] :
    Decidable (okAnd x p) := by
  unfold okAnd; cases x <;> infer_instance

/-! ## `sendRawPacket` and the run loop of `main` -/

/-- `sendRawPacket(packet, packet_size, dstIP)`, the outcomes of `socket`,
`setsockopt` and `sendto` being inputs: the returned `bool` and the bytes
handed to `sendto`, when it is reached. -/
def sendRawPacket (packet : List Nat) (packet_size : Nat)
    (socketOk setsockoptOk sendtoOk : Bool) : Bool × Option (List Nat) :=
  if socketOk = false then (false, none)
  else if setsockoptOk = false then (false, none)
  else (sendtoOk, some (packet.take packet_size))

/-- `size_t labelLength = 10;`. -/
def labelLength : Nat := 10

/-- `std::string baseDomain = "google.com";`. -/
def baseDomain : List Nat := str "google.com"

/-- `uint16_t dnsPort = 53;`. -/
def dnsPort : Nat := 53

/-- The arguments of the call `sendRawPacket(fullPacket, packet_size, destIP)`. -/
structure SendCall where
  packet : List Nat
  packet_size : Nat
  dstIP : List Nat
  deriving DecidableEq, Repr

/-- The loop body of `main` up to the call of `sendRawPacket` (source lines
244 to 258), the random label, the random query id and the address picked
being inputs: `none` for `continue` on an empty pick, else the call made. -/
def loopBody (randomLabel : List Nat) (queryId : Nat) (victimIP : List Nat)
    (victimPort : Nat) (destIP : List Nat) : Exec (Option SendCall) :=
  let targetDomain := randomLabel ++ str "." ++ baseDomain
  let query : DNSQuery := ⟨str "A", targetDomain, queryId⟩
  if destIP = [] then .ok none
  else
    (encodeFullPacket query victimIP victimPort destIP dnsPort).bind fun r =>
      .ok (some ⟨r.packet, 20 + 8 + 50, destIP⟩)

/-- How one pass of the loop body ends. -/
inductive Outcome where
  /-- `pickRandom` returned the empty string: `continue` -/
  | emptyPick
  /-- `sendRawPacket` returned `false`: `continue` -/
  | sendFailed
  /-- `sendRawPacket` returned `true`: sleep, `++i` -/
  | sent
  deriving DecidableEq, Repr

/-- The counter `i` of the run loop and the number of passes begun so far. -/
structure LoopState where
  i : Nat
  attempts : Nat
  deriving DecidableEq, Repr

/-- One pass of the loop body on the counter. -/
def loopStep (s : LoopState) (o : Outcome) : LoopState :=
  match o with
  | .emptyPick => ⟨s.i, s.attempts + 1⟩
  | .sendFailed => ⟨s.i, s.attempts + 1⟩
  | .sent => ⟨s.i + 1, s.attempts + 1⟩

/-- `while (i < maxIterations) { ... } return 0;` run for at most `fuel` tests
of the loop condition, `outcomes k` being how pass number `k` ends: the exit
status and the final state, or `none` while the loop is still running. -/
def runLoop : Nat → Nat → (Nat → Outcome) → LoopState → Option (Nat × LoopState)
  | 0, _, _, _ => none
  | fuel + 1, maxIterations, outcomes, s =>
    if s.i < maxIterations then
      runLoop fuel maxIterations outcomes (loopStep s (outcomes s.attempts))
    else some (0, s)

/-- Number of successful transmissions among the first `k` passes. -/
def sentCount (outcomes : Nat → Outcome) : Nat → Nat
  | 0 => 0
  | k + 1 => sentCount outcomes k + (if outcomes k = .sent then 1 else 0)

/-! ## Reference notions used in the statements -/

/-- Exact sum of the 16-bit words of `l` read in host order, an odd final
byte counting as the word it forms with a zero pad byte. -/
def wordSum : List Nat → Nat
  | b0 :: b1 :: rest => (b0 + 256 * b1) + wordSum rest
  | [b] => b
  | [] => 0

/-- Exact sum of the 16-bit words of `l` read in network order, an odd final
byte counting as the word it forms with a zero pad byte. -/
def netSum : List Nat → Nat
  | b0 :: b1 :: rest => (256 * b0 + b1) + netSum rest
  | [b] => 256 * b
  | [] => 0

/-- One's-complement folding of a sum to 16 bits: add the high 16 bits back
into the low 16 bits until no carry remains. -/
def onesFold (s : Nat) : Nat :=
  if s < 65536 then s else onesFold (s / 65536 + s % 65536)
termination_by s
decreasing_by omega

/-- Zero-pad a span to even length. -/
def padEven (l : List Nat) : List Nat := if l.length % 2 = 0 then l else l ++ [0]

/-- Join labels with `'.'`. -/
def joinDots : List (List Nat) → List Nat
  | [] => []
  | [l] => l
  | l :: l2 :: ls => l ++ DOT :: joinDots (l2 :: ls)

/-- Read length-prefixed labels until a zero length byte. -/
def decodeLabels : Nat → List Nat → Option (List (List Nat))
  | 0, _ => none
  | _ + 1, [] => none
  | fuel + 1, len :: rest =>
    if len = 0 then some []
    else if rest.length < len then none
    else (decodeLabels fuel (rest.drop len)).map (fun ls => rest.take len :: ls)

/-- Decode a QNAME section: read the labels and join them with `'.'`. -/
def decodeQName (bytes : List Nat) : Option (List Nat) :=
  (decodeLabels bytes.length bytes).map joinDots

/-- The QNAME section of a list of labels: every label behind its length
byte (as a `uint8_t`), then the zero byte. -/
def qnameOf : List (List Nat) → List Nat
  | [] => [0]
  | l :: ls => (l.length % 256 :: l.map (· % 256)) ++ qnameOf ls

/-- The buffer of `cap` cells after the stores `ws` have been made from the
start. -/
def DnsBuffer.ofWritten (cap : Nat) (ws : List Nat) : DnsBuffer :=
  ⟨ws ++ List.replicate (cap - ws.length) 0, ws.length⟩

/-- The twelve header bytes of the DNS message. -/
def dnsHeader (query : DNSQuery) : List Nat :=
  [(query.queryId / 256) % 256, query.queryId % 256, 1, 0, 0, 1, 0, 0, 0, 0, 0, 0]

/-- The four bytes found at an address field after `storeAddr` on zeroed
memory. -/
def addrOf (ip : List Nat) : List Nat := (inet_pton ip).getD [0, 0, 0, 0]

/-- The twenty IP header bytes for address bytes `s`, `d` and checksum `chk`. -/
def ipHeader (dnsLen : Nat) (s d : List Nat) (chk : Nat) : List Nat :=
  [69, 0, (28 + dnsLen) % 256, (28 + dnsLen) / 256 % 256, 212, 49, 0, 0, 255, 17,
    chk % 256, chk / 256 % 256] ++ s ++ d

/-- The eight UDP header bytes. -/
def udpHeader (dnsLen srcPort dstPort chk : Nat) : List Nat :=
  [srcPort / 256 % 256, srcPort % 256, dstPort / 256 % 256, dstPort % 256,
    (8 + dnsLen) / 256 % 256, (8 + dnsLen) % 256, chk % 256, chk / 256 % 256]

/-- The twelve pseudo header bytes. -/
def pseudoHeader (dnsLen : Nat) (s d : List Nat) : List Nat :=
  s ++ d ++ [0, 17, (8 + dnsLen) / 256 % 256, (8 + dnsLen) % 256]

/-- The packet image in closed form, for the DNS message `ws`. -/
def wireImage (ws s d : List Nat) (srcPort dstPort : Nat) : List Nat :=
  ipHeader ws.length s d (checksum (ipHeader ws.length s d 0)) ++
    udpHeader ws.length srcPort dstPort
      (checksum (pseudoHeader ws.length s d ++ udpHeader ws.length srcPort dstPort 0 ++ ws)) ++
    ws ++ List.replicate (996 - ws.length) 0

/-- The span of the IP checksum: the 20 header bytes of the packet. -/
def ipSpan (p : List Nat) : List Nat := slice p 0 20

/-- The span of the UDP checksum: the 12-byte pseudo header (source address,
destination address, zero byte, protocol 17, the UDP length field) followed by
the UDP header and the `dnsLen` bytes of the DNS message. -/
def udpSpan (p : List Nat) (dnsLen : Nat) : List Nat :=
  slice p 12 4 ++ slice p 16 4 ++ [0, 17] ++ slice p 24 2 ++ slice p 20 (8 + dnsLen)

/-- A 131078-byte sequence: a zero checksum field followed by 65538 words
`0xFFFF`. -/
def wrapBuf : List Nat := 0 :: 0 :: List.replicate (2 * 65538) 255

/-! ## The DNS buffer: what the stores leave behind -/

theorem Exec.ok_bind {α β : Type} (a : α) (f : α → Exec β) : (Exec.ok a).bind f = f a := rfl

theorem Exec.outOfBounds_bind {α β : Type} (f : α → Exec β) :
    (Exec.outOfBounds : Exec α).bind f = .outOfBounds := rfl

theorem bind_ite {α β : Type} (c : Prop) [Decidable c] (a : α) (f : α → Exec β) :
    (if c then Exec.ok a else Exec.outOfBounds).bind f = if c then f a else .outOfBounds := by
  split <;> rfl

theorem okAnd_iff {α : Type} (x : Exec α) (p : α → Prop) :
    okAnd x p ↔ ∃ a, x = .ok a ∧ p a := by
  cases x <;> simp [okAnd]

theorem zeroed_eq_ofWritten (cap : Nat) : DnsBuffer.zeroed cap = DnsBuffer.ofWritten cap [] := rfl

theorem put_ofWritten (cap : Nat) (ws : List Nat) (v : Nat) :
    put (DnsBuffer.ofWritten cap ws) v =
      if ws.length < cap then .ok (DnsBuffer.ofWritten cap (ws ++ [v % 256]))
      else .outOfBounds := by
  unfold put DnsBuffer.ofWritten
  by_cases h : ws.length < cap
  · have h1 : ws.length < (ws ++ List.replicate (cap - ws.length) 0).length := by
      simp; omega
    simp only [h1, h, if_true]
    congr 1
    simp only [DnsBuffer.mk.injEq, List.length_append, List.length_singleton, and_true]
    obtain ⟨k, hk⟩ : ∃ k, cap - ws.length = k + 1 := ⟨cap - 1 - ws.length, by omega⟩
    have hk2 : cap - (ws.length + 1) = k := by omega
    rw [hk, hk2, List.replicate_succ, List.set_append_right _ _ (le_refl _)]
    simp
  · have h1 : ¬ ws.length < (ws ++ List.replicate (cap - ws.length) 0).length := by
      simp; omega
    simp only [h1, h, if_false]

theorem putAll_ofWritten (cap : Nat) (vs : List Nat) : ∀ ws : List Nat, ws.length ≤ cap →
    putAll (DnsBuffer.ofWritten cap ws) vs =
      if ws.length + vs.length ≤ cap then
        .ok (DnsBuffer.ofWritten cap (ws ++ vs.map (· % 256))) else .outOfBounds := by
  induction vs with
  | nil => intro ws hws; simp [putAll, hws]
  | cons v vs ih =>
    intro ws hws
    simp only [putAll, put_ofWritten]
    by_cases h : ws.length < cap
    · have h3 : (ws ++ [v % 256]).length ≤ cap := by simp; omega
      simp only [h, if_true, Exec.ok_bind, ih _ h3, List.length_append, List.length_singleton,
        List.length_cons, List.map_cons, List.append_assoc, List.singleton_append]
      congr 1
      simp only [eq_iff_iff, List.length_nil]; omega
    · have h2 : ¬ (ws.length + (v :: vs).length ≤ cap) := by simp; omega
      simp only [h, h2, if_false, Exec.outOfBounds_bind]

theorem find_some_lt : ∀ (h : List Nat) (c k : Nat), find h c = some k → k < h.length := by
  intro h c
  induction h with
  | nil => intro k hk; simp [find] at hk
  | cons x xs ih =>
    intro k hk
    simp only [find] at hk
    split at hk
    · simp at hk; subst hk; simp
    · cases hf : find xs c with
      | none => simp [hf] at hk
      | some j =>
        simp [hf] at hk
        subst hk
        have := ih j hf
        simp; omega

/-- One pass of the label loop on a buffer in `ofWritten` form. -/
theorem labelLoop_step (cap fuel k : Nat) (h ws : List Nat) (hfind : find h DOT = some k)
    (hfit : ws.length + (k + 1) ≤ cap) :
    labelLoop (fuel + 1) h (DnsBuffer.ofWritten cap ws) =
      labelLoop fuel (h.drop (k + 1))
        (DnsBuffer.ofWritten cap (ws ++ ([k % 256] ++ (h.take k).map (· % 256)))) := by
  have hk := find_some_lt h DOT k hfind
  have h1 : ws.length < cap := by omega
  have h2 : (ws ++ [k % 256]).length ≤ cap := by simp; omega
  have h3 : (ws ++ [k % 256]).length + (h.take k).length ≤ cap := by simp; omega
  simp only [labelLoop, hfind, put_ofWritten, h1, if_true, Exec.ok_bind,
    putAll_ofWritten _ _ _ h2, h3, List.append_assoc]

/-- A pass of the label loop whose stores do not fit faults. -/
theorem labelLoop_step_fault (cap fuel k : Nat) (h ws : List Nat) (hfind : find h DOT = some k)
    (hfit : ¬ ws.length + (k + 1) ≤ cap) :
    labelLoop (fuel + 1) h (DnsBuffer.ofWritten cap ws) = .outOfBounds := by
  have hk := find_some_lt h DOT k hfind
  simp only [labelLoop, hfind, put_ofWritten]
  by_cases h1 : ws.length < cap
  · have h2 : (ws ++ [k % 256]).length ≤ cap := by simp; omega
    have h3 : ¬ ((ws ++ [k % 256]).length + (h.take k).length ≤ cap) := by simp; omega
    simp only [h1, if_true, Exec.ok_bind, Exec.outOfBounds_bind, putAll_ofWritten _ _ _ h2, h3,
      if_false]
  · simp only [h1, if_false, Exec.outOfBounds_bind]

/-- Accounting for the label loop: it stores as many bytes as it removes from
the hostname, and faults exactly when they do not fit. -/
theorem labelLoop_account (cap : Nat) : ∀ (fuel : Nat) (h ws : List Nat), h.length < fuel →
    ws.length ≤ cap →
    ∃ rest out : List Nat, out.length + rest.length = h.length ∧ (∀ x ∈ out, x < 256) ∧
      labelLoop fuel h (DnsBuffer.ofWritten cap ws) =
        if ws.length + out.length ≤ cap then .ok (rest, DnsBuffer.ofWritten cap (ws ++ out))
        else .outOfBounds := by
  intro fuel
  induction fuel with
  | zero => intro h ws hf; omega
  | succ fuel ih =>
    intro h ws hf hws
    cases hfind : find h DOT with
    | none =>
      refine ⟨h, [], by simp, by simp, ?_⟩
      simp [labelLoop, hfind, hws]
    | some k =>
      have hk := find_some_lt h DOT k hfind
      have hdrop : (h.drop (k + 1)).length < fuel := by simp; omega
      have hstore : ∀ x ∈ [k % 256] ++ (h.take k).map (· % 256), x < 256 := by
        intro x hx
        simp only [List.mem_append, List.mem_singleton, List.mem_map] at hx
        rcases hx with hx | ⟨a, _, rfl⟩
        · subst hx; exact Nat.mod_lt _ (by norm_num)
        · exact Nat.mod_lt _ (by norm_num)
      by_cases hfit : ws.length + (k + 1) ≤ cap
      · have hws2 : (ws ++ ([k % 256] ++ (h.take k).map (· % 256))).length ≤ cap := by
          simp; omega
        obtain ⟨rest, out, hlen, hout, hrun⟩ := ih (h.drop (k + 1))
          (ws ++ ([k % 256] ++ (h.take k).map (· % 256))) hdrop hws2
        refine ⟨rest, [k % 256] ++ (h.take k).map (· % 256) ++ out, ?_, ?_, ?_⟩
        · simp at hlen ⊢; omega
        · intro x hx
          rcases List.mem_append.1 hx with hx | hx
          · exact hstore x hx
          · exact hout x hx
        · rw [labelLoop_step cap fuel k h ws hfind hfit, hrun]
          simp only [List.append_assoc]
          congr 1
          simp only [eq_iff_iff, List.length_append, List.length_singleton, List.length_map,
            List.length_take, List.length_cons, List.length_nil]
          omega
      · refine ⟨h.drop (k + 1), [k % 256] ++ (h.take k).map (· % 256), ?_, hstore, ?_⟩
        · simp; omega
        · have h0 : ¬ (ws.length + ([k % 256] ++ (h.take k).map (· % 256)).length ≤ cap) := by
            simp; omega
          rw [labelLoop_step_fault cap fuel k h ws hfind hfit, if_neg h0]

/-- The DNS encoder once the label loop is known to store `out` and to leave
`rest`. -/
theorem encodeDnsIn_of_loop (cap : Nat) (query : DNSQuery) (rest out : List Nat)
    (hlen : out.length + rest.length = query.hostname.length)
    (hrun : labelLoop (query.hostname.length + 1) query.hostname
        (DnsBuffer.ofWritten cap (dnsHeader query)) =
      if (dnsHeader query).length + out.length ≤ cap then
        .ok (rest, DnsBuffer.ofWritten cap (dnsHeader query ++ out))
      else .outOfBounds) :
    encodeDnsIn (DnsBuffer.zeroed cap) query =
      if query.hostname.length + 18 ≤ cap then
        .ok (DnsBuffer.ofWritten cap (dnsHeader query ++
          (out ++ [rest.length % 256] ++ rest.map (· % 256) ++ [0]) ++ [0, 1, 0, 1]))
      else .outOfBounds := by
  have hhdr : ([] : List Nat) ++ List.map (· % 256)
      [(query.queryId / 256) % 256, query.queryId % 256,
        0x01, 0x00, 0x00, 0x01, 0x00, 0x00, 0x00, 0x00, 0x00, 0x00] = dnsHeader query := by
    simp [dnsHeader]
  have hl : (dnsHeader query).length = 12 := rfl
  unfold encodeDnsIn
  rw [zeroed_eq_ofWritten, putAll_ofWritten _ _ _ (by simp), hhdr]
  simp only [List.length_nil, List.length_cons, Nat.zero_add, Nat.reduceAdd]
  by_cases h12 : 12 ≤ cap
  · simp only [h12, if_true, Exec.ok_bind]
    rw [hrun, bind_ite]
    by_cases hfit : query.hostname.length + 18 ≤ cap
    · have c1 : (dnsHeader query).length + out.length ≤ cap := by rw [hl]; omega
      have c2 : (dnsHeader query ++ out).length < cap := by simp [hl]; omega
      have c3 : (dnsHeader query ++ out ++ [rest.length % 256]).length ≤ cap := by
        simp [hl]; omega
      have c4 : (dnsHeader query ++ out ++ [rest.length % 256]).length + rest.length ≤ cap := by
        simp [hl]; omega
      have c5 : (dnsHeader query ++ out ++ [rest.length % 256] ++ rest.map (· % 256)).length
          ≤ cap := by simp [hl]; omega
      have c6 : (dnsHeader query ++ out ++ [rest.length % 256] ++ rest.map (· % 256)).length
          + [0, 0, 1, 0, 1].length ≤ cap := by simp [hl]; omega
      simp only [c1, hfit, if_true, put_ofWritten, c2, Exec.ok_bind, putAll_ofWritten _ _ _ c3,
        c4, putAll_ofWritten _ _ _ c5, c6]
      simp
    · simp only [hfit, if_false]
      split_ifs with c1
      · simp only [put_ofWritten]
        split_ifs with c2
        · have c3 : (dnsHeader query ++ out ++ [rest.length % 256]).length ≤ cap := by
            simp [hl] at c2 ⊢; omega
          simp only [Exec.ok_bind, Exec.outOfBounds_bind, putAll_ofWritten _ _ _ c3]
          split_ifs with c4
          · have c5 : (dnsHeader query ++ out ++ [rest.length % 256] ++
                rest.map (· % 256)).length ≤ cap := by simp [hl] at c4 ⊢; omega
            have c6 : ¬ ((dnsHeader query ++ out ++ [rest.length % 256] ++
                rest.map (· % 256)).length + [0, 0, 1, 0, 1].length ≤ cap) := by
              simp [hl]; omega
            rw [Exec.ok_bind, putAll_ofWritten _ _ _ c5, if_neg c6]
          · rfl
        · rfl
      · rfl
  · have hfit : ¬ query.hostname.length + 18 ≤ cap := by omega
    simp only [h12, hfit, if_false, Exec.outOfBounds_bind]

/-- Accounting for the DNS encoder: twelve header bytes, a QNAME of hostname
length plus two bytes, four trailer bytes; it faults exactly when they do
not fit the buffer. -/
theorem encodeDnsIn_account (cap : Nat) (query : DNSQuery) :
    ∃ qname : List Nat, qname.length = query.hostname.length + 2 ∧ (∀ x ∈ qname, x < 256) ∧
      encodeDnsIn (DnsBuffer.zeroed cap) query =
        if query.hostname.length + 18 ≤ cap then
          .ok (DnsBuffer.ofWritten cap (dnsHeader query ++ qname ++ [0, 1, 0, 1]))
        else .outOfBounds := by
  by_cases h12 : 12 ≤ cap
  · obtain ⟨rest, out, hlen, hout, hrun⟩ :=
      labelLoop_account cap (query.hostname.length + 1) query.hostname (dnsHeader query)
        (Nat.lt_succ_self _) (by simpa [dnsHeader] using h12)
    refine ⟨out ++ [rest.length % 256] ++ rest.map (· % 256) ++ [0], ?_, ?_,
      encodeDnsIn_of_loop cap query rest out hlen hrun⟩
    · simp; omega
    · intro x hx
      simp only [List.mem_append, List.mem_singleton, List.mem_map] at hx
      rcases hx with ((hx | hx) | ⟨a, _, rfl⟩) | hx
      · exact hout x hx
      · subst hx; exact Nat.mod_lt _ (by norm_num)
      · exact Nat.mod_lt _ (by norm_num)
      · subst hx; norm_num
  · refine ⟨List.replicate (query.hostname.length + 2) 0, by simp, ?_, ?_⟩
    · intro x hx; rw [List.eq_of_mem_replicate hx]; norm_num
    · have hfit : ¬ query.hostname.length + 18 ≤ cap := by omega
      have h0 : ¬ ([] : List Nat).length + [(query.queryId / 256) % 256, query.queryId % 256,
          0x01, 0x00, 0x00, 0x01, 0x00, 0x00, 0x00, 0x00, 0x00, 0x00].length ≤ cap := by
        simp; omega
      unfold encodeDnsIn
      rw [zeroed_eq_ofWritten, putAll_ofWritten _ _ _ (by simp), if_neg h0, if_neg hfit]
      rfl

/-! ## The label loop on a hostname given by its labels -/

theorem find_no_dot : ∀ l : List Nat, DOT ∉ l → find l DOT = none := by
  intro l
  induction l with
  | nil => intro _; rfl
  | cons x xs ih =>
    intro h
    simp only [List.mem_cons, not_or] at h
    have hx : ¬ x = DOT := fun e => h.1 e.symm
    simp [find, hx, ih h.2]

theorem find_label_dot : ∀ (l r : List Nat), DOT ∉ l → find (l ++ DOT :: r) DOT = some l.length := by
  intro l r
  induction l with
  | nil => intro _; simp [find]
  | cons x xs ih =>
    intro h
    simp only [List.mem_cons, not_or] at h
    have hx : ¬ x = DOT := fun e => h.1 e.symm
    simp [find, hx, ih h.2]

theorem length_joinDots_le : ∀ (labels : List (List Nat)) (m : Nat),
    (∀ l ∈ labels, l.length ≤ m) → (joinDots labels).length + 1 ≤ (m + 1) * labels.length + 1 := by
  intro labels m
  induction labels with
  | nil => intro _; simp [joinDots]
  | cons l ls ih =>
    intro h
    have hl := h l (List.mem_cons_self _ _)
    have hls := ih (fun x hx => h x (List.mem_cons_of_mem _ hx))
    cases ls with
    | nil => simp [joinDots]; nlinarith
    | cons l2 ls =>
      simp only [joinDots, List.length_append, List.length_cons] at hls ⊢
      nlinarith

/-- The label loop on a dot-joined list of dot-free labels: what it stores,
followed by the stores made for the remaining hostname and the zero byte, is
the QNAME section of the labels. -/
theorem labelLoop_labels (cap : Nat) : ∀ (labels : List (List Nat)), labels ≠ [] →
    (∀ l ∈ labels, DOT ∉ l) → ∀ (fuel : Nat) (ws : List Nat),
    (joinDots labels).length < fuel → ws.length ≤ cap →
    ∃ rest out : List Nat, out.length + rest.length = (joinDots labels).length ∧
      out ++ [rest.length % 256] ++ rest.map (· % 256) ++ [0] = qnameOf labels ∧
      labelLoop fuel (joinDots labels) (DnsBuffer.ofWritten cap ws) =
        if ws.length + out.length ≤ cap then .ok (rest, DnsBuffer.ofWritten cap (ws ++ out))
        else .outOfBounds := by
  intro labels
  induction labels with
  | nil => intro h; exact absurd rfl h
  | cons l ls ih =>
    intro _ hdot fuel ws hfuel hws
    have hl : DOT ∉ l := hdot l (List.mem_cons_self _ _)
    cases ls with
    | nil =>
      refine ⟨l, [], by simp [joinDots], by simp [qnameOf], ?_⟩
      cases fuel with
      | zero => omega
      | succ fuel => simp [labelLoop, joinDots, find_no_dot l hl, hws]
    | cons l2 ls =>
      cases fuel with
      | zero => omega
      | succ fuel =>
        have hfind : find (joinDots (l :: l2 :: ls)) DOT = some l.length := by
          simp only [joinDots]; exact find_label_dot l _ hl
        have htake : (joinDots (l :: l2 :: ls)).take l.length = l := by
          simp [joinDots]
        have hdrop : (joinDots (l :: l2 :: ls)).drop (l.length + 1) = joinDots (l2 :: ls) := by
          simp [joinDots]
        have hlen : (joinDots (l :: l2 :: ls)).length =
            l.length + 1 + (joinDots (l2 :: ls)).length := by
          simp [joinDots]; omega
        by_cases hfit : ws.length + (l.length + 1) ≤ cap
        · obtain ⟨rest, out, hlen2, hq, hrun⟩ := ih (List.cons_ne_nil _ _)
            (fun x hx => hdot x (List.mem_cons_of_mem _ hx)) fuel
            (ws ++ ([l.length % 256] ++ l.map (· % 256))) (by omega) (by simp; omega)
          refine ⟨rest, [l.length % 256] ++ l.map (· % 256) ++ out, ?_, ?_, ?_⟩
          · simp at hlen2 ⊢; omega
          · rw [show qnameOf (l :: l2 :: ls) =
              (l.length % 256 :: l.map (· % 256)) ++ qnameOf (l2 :: ls) from rfl, ← hq]
            simp
          · rw [labelLoop_step cap fuel l.length _ ws hfind hfit, htake, hdrop, hrun]
            simp only [List.append_assoc]
            congr 1
            simp only [eq_iff_iff, List.length_append, List.length_singleton, List.length_map,
              List.length_cons, List.length_nil]
            omega
        · obtain ⟨rest, out, hlen2, hq, -⟩ := ih (List.cons_ne_nil _ _)
            (fun x hx => hdot x (List.mem_cons_of_mem _ hx)) fuel [] (by omega) (Nat.zero_le _)
          refine ⟨rest, [l.length % 256] ++ l.map (· % 256) ++ out, ?_, ?_, ?_⟩
          · simp at hlen2 ⊢; omega
          · rw [show qnameOf (l :: l2 :: ls) =
              (l.length % 256 :: l.map (· % 256)) ++ qnameOf (l2 :: ls) from rfl, ← hq]
            simp
          · have h0 : ¬ (ws.length + ([l.length % 256] ++ l.map (· % 256) ++ out).length
                ≤ cap) := by simp; omega
            rw [labelLoop_step_fault cap fuel l.length _ ws hfind hfit, if_neg h0]

/-- The DNS encoder on a hostname given by its dot-free labels. -/
theorem encodeDnsIn_labels (cap : Nat) (ty : List Nat) (queryId : Nat)
    (labels : List (List Nat)) (hne : labels ≠ []) (hdot : ∀ l ∈ labels, DOT ∉ l) :
    encodeDnsIn (DnsBuffer.zeroed cap) ⟨ty, joinDots labels, queryId⟩ =
      if (joinDots labels).length + 18 ≤ cap then
        .ok (DnsBuffer.ofWritten cap
          (dnsHeader ⟨ty, joinDots labels, queryId⟩ ++ qnameOf labels ++ [0, 1, 0, 1]))
      else .outOfBounds := by
  by_cases h12 : 12 ≤ cap
  · obtain ⟨rest, out, hlen, hq, hrun⟩ := labelLoop_labels cap labels hne hdot
      ((joinDots labels).length + 1) (dnsHeader ⟨ty, joinDots labels, queryId⟩)
      (Nat.lt_succ_self _) (by simpa [dnsHeader] using h12)
    rw [← hq]
    exact encodeDnsIn_of_loop cap ⟨ty, joinDots labels, queryId⟩ rest out hlen hrun
  · obtain ⟨qname, -, -, h⟩ := encodeDnsIn_account cap ⟨ty, joinDots labels, queryId⟩
    have hfit : ¬ (joinDots labels).length + 18 ≤ cap := by omega
    rw [h]
    simp only [hfit, if_false]

/-! ## The address bytes -/

theorem inet_pton4_inv : ∀ (src tmp : List Nat) (tp : Nat) (saw : Bool) (octets : Nat)
    (a : List Nat), tmp.length = 4 → (∀ x ∈ tmp, x < 256) →
    inet_pton4 src tmp tp saw octets = some a → a.length = 4 ∧ ∀ x ∈ a, x < 256 := by
  intro src
  induction src with
  | nil =>
    intro tmp tp saw octets a hl hb h
    simp only [inet_pton4] at h
    split at h
    · simp at h
    · simp at h; subst h; exact ⟨hl, hb⟩
  | cons ch src ih =>
    intro tmp tp saw octets a hl hb h
    have hset : ∀ (i v : Nat), v < 256 → ∀ x ∈ tmp.set i v, x < 256 := by
      intro i v hv x hx
      rcases List.mem_or_eq_of_mem_set hx with hx | hx
      · exact hb x hx
      · omega
    simp only [inet_pton4] at h
    split_ifs at h with h1 h2 h3 h4 h5 h6 h7 h8 h9
    · simp at h; subst h; exact ⟨hl, hb⟩
    · exact ih _ _ _ _ _ (by simp [hl]) (hset _ _ (by omega)) h
    · exact ih _ _ _ _ _ (by simp [hl]) (hset _ _ (by omega)) h
    · exact ih _ _ _ _ _ (by simp [hl]) (hset _ _ (by omega)) h

theorem addrOf_length (ip : List Nat) : (addrOf ip).length = 4 := by
  unfold addrOf inet_pton
  cases h : inet_pton4 ip [0, 0, 0, 0] 0 false 0 with
  | none => rfl
  | some a => exact (inet_pton4_inv ip [0, 0, 0, 0] 0 false 0 a rfl (by simp) h).1

theorem addrOf_lt (ip : List Nat) : ∀ x ∈ addrOf ip, x < 256 := by
  unfold addrOf inet_pton
  cases h : inet_pton4 ip [0, 0, 0, 0] 0 false 0 with
  | none => simp
  | some a => exact (inet_pton4_inv ip [0, 0, 0, 0] 0 false 0 a rfl (by simp) h).2

theorem writeAt_slice_self (m : List Nat) (off len : Nat) (h : off + len ≤ m.length) :
    writeAt m off (slice m off len) = m := by
  unfold writeAt slice
  have hl : ((m.drop off).take len).length = len := by simp; omega
  rw [hl, List.append_assoc, ← List.drop_drop, List.take_append_drop, List.take_append_drop]

theorem storeAddr_zero (m : List Nat) (off : Nat) (ip : List Nat)
    (hz : slice m off 4 = [0, 0, 0, 0]) (h : off + 4 ≤ m.length) :
    storeAddr m off ip = writeAt m off (addrOf ip) := by
  unfold storeAddr addrOf
  cases inet_pton ip with
  | none => simp only [Option.getD_none]; rw [← hz, writeAt_slice_self m off 4 h]
  | some a => rfl

/-! ## Closed form of the assembled packet -/

theorem store16_htons (x : Nat) : store16 (htons x) = [x / 256 % 256, x % 256] := by
  have h1 : (x % 256 * 256 + x / 256 % 256) / 256 = x % 256 := by omega
  have h2 : (x % 256 * 256 + x / 256 % 256) % 256 = x / 256 % 256 := by omega
  unfold store16 htons
  rw [h1, h2, Nat.mod_mod]

theorem list_length_four (l : List Nat) (h : l.length = 4) :
    ∃ a b c d, l = [a, b, c, d] := by
  match l, h with
  | [a, b, c, d], _ => exact ⟨a, b, c, d, rfl⟩

theorem fillIp_eq (t : List Nat) (dnsLen : Nat) (hn : dnsLen ≤ 512) (srcIP dstIP : List Nat) :
    fillIp (List.replicate 20 0 ++ t) dnsLen srcIP dstIP =
      ipHeader dnsLen (addrOf srcIP) (addrOf dstIP) 0 ++ t := by
  obtain ⟨s0, s1, s2, s3, hs⟩ := list_length_four _ (addrOf_length srcIP)
  obtain ⟨d0, d1, d2, d3, hd⟩ := list_length_four _ (addrOf_length dstIP)
  have hm : (20 + 8 + dnsLen) % 65536 = 28 + dnsLen := by omega
  unfold fillIp
  simp only [hm, store16_htons]
  rw [storeAddr_zero _ 12 srcIP, hs, storeAddr_zero _ 16 dstIP, hd]
  · simp [writeAt, store16, ipHeader, hs, hd]
  · simp [writeAt, store16, slice]
  · simp [writeAt, store16]
  · simp [writeAt, store16, slice]
  · simp [writeAt, store16]

theorem length_slice (m : List Nat) (off len : Nat) (h : off + len ≤ m.length) :
    (slice m off len).length = len := by
  unfold slice; simp; omega

theorem checkBuf_slice (p : List Nat) (n : Nat) (hp : 28 + n ≤ p.length) :
    slice (checkBuf p n) 0 (12 + 8 + n) =
      slice p 12 4 ++ slice p 16 4 ++ [0, 17] ++ slice p 24 2 ++ slice p 20 (8 + n) := by
  have h1 : (slice p 12 4 ++ slice p 16 4 ++ [0, 17] ++ slice p 24 2).length = 12 := by
    simp [length_slice p 12 4 (by omega), length_slice p 16 4 (by omega),
      length_slice p 24 2 (by omega)]
  have h2 := length_slice p 20 (8 + n) (by omega)
  unfold checkBuf
  generalize slice p 12 4 ++ slice p 16 4 ++ [0, 17] ++ slice p 24 2 = ps at h1 ⊢
  generalize slice p 20 (8 + n) = u at h2 ⊢
  generalize List.replicate 1024 (0 : Nat) = z
  simp only [writeAt, slice, List.take_zero, List.nil_append, List.drop_zero, Nat.zero_add]
  rw [List.take_left' h1, List.append_assoc, ← List.append_assoc ps u]
  apply List.take_left'
  simp [h1, h2]; omega

theorem assemble_eq (ws : List Nat) (hn : ws.length ≤ 512) (srcIP : List Nat) (srcPort : Nat)
    (dstIP : List Nat) (dstPort : Nat) :
    assemble (ws ++ List.replicate (512 - ws.length) 0) ws.length srcIP srcPort dstIP dstPort =
      ipHeader ws.length (addrOf srcIP) (addrOf dstIP)
          (checksum (ipHeader ws.length (addrOf srcIP) (addrOf dstIP) 0)) ++
        udpHeader ws.length srcPort dstPort
          (checksum (pseudoHeader ws.length (addrOf srcIP) (addrOf dstIP) ++
            udpHeader ws.length srcPort dstPort 0 ++ ws)) ++
        ws ++ List.replicate (996 - ws.length) 0 := by
  have hrep : List.replicate 1024 (0 : Nat) =
      List.replicate 20 0 ++ (List.replicate 8 0 ++ List.replicate 996 0) := by
    rw [List.append_replicate_replicate, List.append_replicate_replicate]
  have hdrop : List.drop ws.length (List.replicate 996 (0 : Nat)) =
      List.replicate (996 - ws.length) 0 := List.drop_replicate _ _ _
  have hlen : (List.replicate 996 (0 : Nat)).length = 996 := List.length_replicate _ _
  have h8 : List.replicate 8 (0 : Nat) = [0, 0, 0, 0, 0, 0, 0, 0] := rfl
  unfold assemble
  rw [hrep, fillIp_eq _ _ hn, List.take_left, ← hdrop, h8]
  generalize List.replicate 996 (0 : Nat) = t at hlen ⊢
  obtain ⟨s0, s1, s2, s3, hs⟩ := list_length_four _ (addrOf_length srcIP)
  obtain ⟨d0, d1, d2, d3, hd⟩ := list_length_four _ (addrOf_length dstIP)
  rw [hs, hd]
  have hp3 : writeAt (fillUdp (ipHeader ws.length [s0, s1, s2, s3]
      [d0, d1, d2, d3] 0 ++ ([0, 0, 0, 0, 0, 0, 0, 0] ++ t)) ws.length srcPort dstPort) 28 ws =
        ipHeader ws.length [s0, s1, s2, s3] [d0, d1, d2, d3] 0 ++
          (udpHeader ws.length srcPort dstPort 0 ++ (ws ++ t.drop ws.length)) := by
    simp only [ipHeader, fillUdp, store16_htons, udpHeader]
    simp [writeAt, store16]
    rw [Nat.add_comm 28]
    rfl
  have h20 : ∀ r : List Nat, slice (ipHeader ws.length [s0, s1, s2, s3] [d0, d1, d2, d3] 0 ++ r)
      0 20 = ipHeader ws.length [s0, s1, s2, s3] [d0, d1, d2, d3] 0 := by
    intro r; simp [slice, ipHeader]
  have hw10 : ∀ (a : Nat) (r : List Nat),
      writeAt (ipHeader ws.length [s0, s1, s2, s3] [d0, d1, d2, d3] 0 ++ r) 10 (store16 a) =
        ipHeader ws.length [s0, s1, s2, s3] [d0, d1, d2, d3] a ++ r := by
    intro a r; simp [writeAt, store16, ipHeader]
  have hw26 : ∀ (a c : Nat) (r : List Nat),
      writeAt (ipHeader ws.length [s0, s1, s2, s3] [d0, d1, d2, d3] a ++
        (udpHeader ws.length srcPort dstPort 0 ++ r)) 26 (store16 c) =
        ipHeader ws.length [s0, s1, s2, s3] [d0, d1, d2, d3] a ++
          (udpHeader ws.length srcPort dstPort c ++ r) := by
    intro a c r; simp [writeAt, store16, ipHeader, udpHeader]
  have hsl : ∀ (a : Nat) (r : List Nat),
      slice (ipHeader ws.length [s0, s1, s2, s3] [d0, d1, d2, d3] a ++
        (udpHeader ws.length srcPort dstPort 0 ++ (ws ++ r))) 12 4 ++
      slice (ipHeader ws.length [s0, s1, s2, s3] [d0, d1, d2, d3] a ++
        (udpHeader ws.length srcPort dstPort 0 ++ (ws ++ r))) 16 4 ++ [0, 17] ++
      slice (ipHeader ws.length [s0, s1, s2, s3] [d0, d1, d2, d3] a ++
        (udpHeader ws.length srcPort dstPort 0 ++ (ws ++ r))) 24 2 ++
      slice (ipHeader ws.length [s0, s1, s2, s3] [d0, d1, d2, d3] a ++
        (udpHeader ws.length srcPort dstPort 0 ++ (ws ++ r))) 20 (8 + ws.length) =
      pseudoHeader ws.length [s0, s1, s2, s3] [d0, d1, d2, d3] ++
        udpHeader ws.length srcPort dstPort 0 ++ ws := by
    intro a r
    simp [slice, ipHeader, udpHeader, pseudoHeader]
    rw [Nat.add_comm 8]
    simp [List.take]
  simp only []
  rw [hp3, h20, hw10, checkBuf_slice _ _ (by simp [ipHeader, udpHeader]; omega), hsl, hw26]
  simp

/-- The packet `encodeFullPacket` returns once the DNS encoder is known to
have stored `ws`. -/
theorem encodeFullPacket_of_dns (query : DNSQuery) (srcIP : List Nat) (srcPort : Nat)
    (dstIP : List Nat) (dstPort : Nat) (ws : List Nat) (hws : ws.length ≤ 512)
    (h : encodeDns query = .ok (DnsBuffer.ofWritten 512 ws)) :
    encodeFullPacket query srcIP srcPort dstIP dstPort =
      .ok ⟨wireImage ws (addrOf srcIP) (addrOf dstIP) srcPort dstPort, ws.length⟩ := by
  unfold encodeFullPacket
  rw [h, Exec.ok_bind]
  simp only [DnsBuffer.ofWritten]
  rw [assemble_eq ws hws]
  rfl

/-! ## Checksum arithmetic -/

theorem sumLoop_eq : ∀ (buf : List Nat) (acc : Nat), acc < 4294967296 →
    sumLoop buf acc = (acc + wordSum buf) % 4294967296 := by
  intro buf
  induction buf using wordSum.induct with
  | case1 b0 b1 rest ih =>
    intro acc hacc
    rw [sumLoop, wordSum, ih _ (Nat.mod_lt _ (by norm_num))]
    omega
  | case2 b => intro acc _; rw [sumLoop, wordSum]
  | case3 => intro acc hacc; rw [sumLoop, wordSum]; omega

/-- The value `checksum` returns, from the wrapped sum `T` of the words. -/
theorem fold_arith (T : Nat) (hT : T < 4294967296) :
    (4294967295 - ((T / 65536 + T % 65536) % 4294967296 +
      (T / 65536 + T % 65536) % 4294967296 / 65536) % 4294967296) % 65536 =
      65535 - (if T = 0 then 0 else (T - 1) % 65535 + 1) := by
  have hhi : T / 65536 < 65536 := by omega
  have hlo : T % 65536 < 65536 := Nat.mod_lt _ (by norm_num)
  have hT2 : T = 65535 * (T / 65536) + (T / 65536 + T % 65536) := by omega
  have ha : T / 65536 + T % 65536 ≤ 131070 := by omega
  have hle : T / 65536 ≤ T / 65536 + T % 65536 := Nat.le_add_right _ _
  generalize T / 65536 + T % 65536 = a at hT2 ha hle ⊢
  generalize T / 65536 = hi at hT2 hhi hle
  have h1 : a % 4294967296 = a := Nat.mod_eq_of_lt (by omega)
  rw [h1]
  by_cases hc : a < 65536
  · have h2 : a / 65536 = 0 := by omega
    have h3 : (a + 0) % 4294967296 = a := by omega
    rw [h2, h3]
    by_cases h0 : T = 0
    · simp only [h0, if_true]; omega
    · simp only [h0, if_false]
      have h4 : (T - 1) % 65535 = a - 1 := by
        have : T - 1 = (a - 1) + 65535 * hi := by omega
        rw [this, Nat.add_mul_mod_self_left]
        exact Nat.mod_eq_of_lt (by omega)
      omega
  · have h2 : a / 65536 = 1 := by omega
    have h3 : (a + 1) % 4294967296 = a + 1 := by omega
    rw [h2, h3]
    have h0 : ¬ T = 0 := by omega
    simp only [h0, if_false]
    have h4 : (T - 1) % 65535 = a - 65536 := by
      have : T - 1 = (a - 65536) + 65535 * (hi + 1) := by omega
      rw [this, Nat.add_mul_mod_self_left]
      exact Nat.mod_eq_of_lt (by omega)
    omega

theorem checksum_eq (buf : List Nat) :
    checksum buf = 65535 - (if wordSum buf % 4294967296 = 0 then 0
      else (wordSum buf % 4294967296 - 1) % 65535 + 1) := by
  unfold checksum foldedSum
  simp only []
  rw [sumLoop_eq buf 0 (by norm_num), Nat.zero_add]
  exact fold_arith _ (Nat.mod_lt _ (by norm_num))

theorem onesFold_eq (s : Nat) : onesFold s = if s = 0 then 0 else (s - 1) % 65535 + 1 := by
  induction s using Nat.strong_induction_on with
  | _ s ih =>
    rw [onesFold]
    by_cases h : s < 65536
    · simp only [h, if_true]; split <;> omega
    · simp only [h, if_false]
      rw [ih _ (by omega)]
      split <;> split <;> omega

/-- The wrapped sum plus the checksum computed from it is a positive multiple
of `0xFFFF` that still fits 32 bits. -/
theorem comp_arith (T : Nat) (hT : T < 4294967296) :
    ∃ m, 1 ≤ m ∧ m ≤ 65537 ∧
      T + (65535 - (if T = 0 then 0 else (T - 1) % 65535 + 1)) = 65535 * m := by
  by_cases h0 : T = 0
  · exact ⟨1, by omega, by omega, by simp [h0]⟩
  · refine ⟨(T - 1) / 65535 + 1, by omega, by omega, ?_⟩
    simp only [h0, if_false]
    omega

theorem onesFold_of_dvd (s m : Nat) (hm : 1 ≤ m) (hs : s = 65535 * m) : onesFold s = 65535 := by
  rw [onesFold_eq]
  have h0 : ¬ s = 0 := by omega
  simp only [h0, if_false]
  have : s - 1 = 65534 + 65535 * (m - 1) := by omega
  rw [this, Nat.add_mul_mod_self_left]

theorem wordSum_append : ∀ (a b : List Nat), a.length % 2 = 0 →
    wordSum (a ++ b) = wordSum a + wordSum b := by
  intro a
  induction a using wordSum.induct with
  | case1 b0 b1 rest ih =>
    intro b h
    have hr : rest.length % 2 = 0 := by simp at h; omega
    have e1 : wordSum (b0 :: b1 :: rest ++ b) = (b0 + 256 * b1) + wordSum (rest ++ b) := rfl
    have e2 : wordSum (b0 :: b1 :: rest) = (b0 + 256 * b1) + wordSum rest := rfl
    rw [e1, e2, ih b hr]
    omega
  | case2 x => intro b h; simp at h
  | case3 => intro b _; simp [wordSum]

/-- Reading the words in the other byte order multiplies the sum by 256
modulo `0xFFFF`. -/
theorem netSum_wordSum : ∀ l : List Nat, ∃ Y, 256 * netSum l = wordSum l + 65535 * Y := by
  intro l
  induction l using wordSum.induct with
  | case1 b0 b1 rest ih =>
    obtain ⟨Y, hY⟩ := ih
    refine ⟨Y + b0, ?_⟩
    simp only [netSum, wordSum]
    omega
  | case2 b => exact ⟨b, by simp only [netSum, wordSum]; omega⟩
  | case3 => exact ⟨0, by simp [netSum, wordSum]⟩

theorem onesFold_netSum (l : List Nat) (h : onesFold (wordSum l) = 65535) :
    onesFold (netSum l) = 65535 := by
  obtain ⟨Y, hY⟩ := netSum_wordSum l
  rw [onesFold_eq] at h
  have hpos : wordSum l ≠ 0 := by
    intro h0; simp [h0] at h
  simp only [hpos, if_false] at h
  have hdvd : 65535 ∣ wordSum l := by omega
  have h2 : 65535 ∣ netSum l * 256 := by
    rw [Nat.mul_comm, hY]
    exact Dvd.dvd.add hdvd (Dvd.intro _ rfl)
  have h3 : 65535 ∣ netSum l := Nat.Coprime.dvd_of_dvd_mul_right (by norm_num) h2
  obtain ⟨m, hm⟩ := h3
  exact onesFold_of_dvd _ m (by omega) hm

theorem split_at_field (buf : List Nat) (k : Nat) :
    buf = buf.take k ++ (slice buf k 2 ++ buf.drop (k + 2)) := by
  unfold slice
  rw [← List.drop_drop, List.take_append_drop, List.take_append_drop]

theorem writeAt_field (buf : List Nat) (k x y : Nat) :
    writeAt buf k [x, y] = buf.take k ++ ([x, y] ++ buf.drop (k + 2)) := by
  simp [writeAt]

theorem wordSum_writeAt (buf : List Nat) (k x y : Nat) (hk : k % 2 = 0)
    (hlen : k + 2 ≤ buf.length) (hz : slice buf k 2 = [0, 0]) :
    wordSum (writeAt buf k [x, y]) = wordSum buf + (x + 256 * y) := by
  have htk : (buf.take k).length % 2 = 0 := by simp; omega
  have h1 := split_at_field buf k
  rw [hz] at h1
  have h2 : wordSum buf = wordSum (buf.take k) + wordSum (buf.drop (k + 2)) := by
    have e0 : wordSum ([0, 0] ++ buf.drop (k + 2)) = (0 + 256 * 0) + wordSum (buf.drop (k + 2)) :=
      rfl
    conv_lhs => rw [h1]
    rw [wordSum_append _ _ htk, e0]
    omega
  have e1 : wordSum ([x, y] ++ buf.drop (k + 2)) = (x + 256 * y) + wordSum (buf.drop (k + 2)) :=
    rfl
  rw [writeAt_field, wordSum_append _ _ htk, h2, e1]
  omega

theorem checksum_lt (buf : List Nat) : checksum buf < 65536 := by
  unfold checksum; exact Nat.mod_lt _ (by norm_num)

/-- The round trip of `checksum`: with the returned value stored in the zero
field at the even offset `k`, the function returns 0 on the result; when the
word sum did not wrap, the exact one's-complement sum, in either byte order,
is `0xFFFF`. -/
theorem checksum_complete (buf : List Nat) (k : Nat) (hk : k % 2 = 0)
    (hlen : k + 2 ≤ buf.length) (hz : slice buf k 2 = [0, 0]) :
    checksum (writeAt buf k (store16 (checksum buf))) = 0 ∧
    (wordSum buf < 4294967296 →
      onesFold (wordSum (writeAt buf k (store16 (checksum buf)))) = 65535 ∧
      onesFold (netSum (writeAt buf k (store16 (checksum buf)))) = 65535) := by
  have hc := checksum_lt buf
  have hw : wordSum (writeAt buf k (store16 (checksum buf))) = wordSum buf + checksum buf := by
    unfold store16
    rw [wordSum_writeAt buf k _ _ hk hlen hz]
    omega
  obtain ⟨m, hm1, hm2, hm⟩ := comp_arith (wordSum buf % 4294967296)
    (Nat.mod_lt _ (by norm_num))
  rw [← checksum_eq buf] at hm
  constructor
  · rw [checksum_eq, hw]
    have hT : (wordSum buf + checksum buf) % 4294967296 = 65535 * m := by omega
    rw [hT]
    have h0 : ¬ 65535 * m = 0 := by omega
    simp only [h0, if_false]
    have : 65535 * m - 1 = 65534 + 65535 * (m - 1) := by omega
    rw [this, Nat.add_mul_mod_self_left]
  · intro hS
    have h1 : onesFold (wordSum (writeAt buf k (store16 (checksum buf)))) = 65535 := by
      rw [hw]
      exact onesFold_of_dvd _ m hm1 (by rw [← hm, Nat.mod_eq_of_lt hS])
    exact ⟨h1, onesFold_netSum _ h1⟩

/-! ## The packet as a function of the query -/

/-- What `encodeFullPacket` returns: for a hostname of at most 494 bytes the
packet in closed form around a DNS message of hostname length plus 18 bytes,
for a longer one a store outside `dnsBuffer`. -/
theorem encodeFullPacket_account (query : DNSQuery) (srcIP : List Nat) (srcPort : Nat)
    (dstIP : List Nat) (dstPort : Nat) :
    ∃ qname : List Nat, qname.length = query.hostname.length + 2 ∧ (∀ x ∈ qname, x < 256) ∧
      encodeFullPacket query srcIP srcPort dstIP dstPort =
        if query.hostname.length ≤ 494 then
          .ok ⟨wireImage (dnsHeader query ++ qname ++ [0, 1, 0, 1]) (addrOf srcIP) (addrOf dstIP)
            srcPort dstPort, query.hostname.length + 18⟩
        else .outOfBounds := by
  obtain ⟨qname, hlen, hlt, h⟩ := encodeDnsIn_account 512 query
  refine ⟨qname, hlen, hlt, ?_⟩
  have hl : (dnsHeader query ++ qname ++ [0, 1, 0, 1]).length = query.hostname.length + 18 := by
    simp [dnsHeader, hlen]
  by_cases hfit : query.hostname.length ≤ 494
  · have h18 : query.hostname.length + 18 ≤ 512 := by omega
    rw [if_pos h18] at h
    rw [if_pos hfit, encodeFullPacket_of_dns query srcIP srcPort dstIP dstPort _ (by omega) h, hl]
  · have h18 : ¬ query.hostname.length + 18 ≤ 512 := by omega
    rw [if_neg h18] at h
    rw [if_neg hfit]
    unfold encodeFullPacket
    rw [show encodeDns query = .outOfBounds from h]
    rfl

/-- Claim C10. For every hostname the DNS part of `encodeFullPacket` makes
exactly hostname length + 18 stores: in a buffer with room for them the write
position ends there. In the 512-byte `dnsBuffer` the function completes, with
`dnsLen` = hostname length + 18, when the hostname has at most 494 bytes, and
stores out of bounds when it is longer. -/
theorem dns_message_length (query : DNSQuery) (srcIP : List Nat) (srcPort : Nat)
    (dstIP : List Nat) (dstPort : Nat) :
    (∀ cap, query.hostname.length + 18 ≤ cap →
      ∃ b, encodeDnsIn (DnsBuffer.zeroed cap) query = .ok b ∧
        b.dnsPos = query.hostname.length + 18) ∧
    (∀ cap, cap < query.hostname.length + 18 →
      encodeDnsIn (DnsBuffer.zeroed cap) query = .outOfBounds) ∧
    (query.hostname.length ≤ 494 ↔
      ∃ r, encodeFullPacket query srcIP srcPort dstIP dstPort = .ok r ∧
        r.dnsLen = query.hostname.length + 18) ∧
    (494 < query.hostname.length ↔
      encodeFullPacket query srcIP srcPort dstIP dstPort = .outOfBounds) := by
  obtain ⟨qname, hlen, -, h⟩ := encodeFullPacket_account query srcIP srcPort dstIP dstPort
  refine ⟨?_, ?_, ?_, ?_⟩
  · intro cap hcap
    obtain ⟨qn, hl, -, hq⟩ := encodeDnsIn_account cap query
    rw [if_pos hcap] at hq
    exact ⟨_, hq, by simp [DnsBuffer.ofWritten, dnsHeader, hl]⟩
  · intro cap hcap
    obtain ⟨qn, hl, -, hq⟩ := encodeDnsIn_account cap query
    rw [if_neg (by omega)] at hq
    exact hq
  · by_cases hfit : query.hostname.length ≤ 494
    · rw [if_pos hfit] at h
      exact ⟨fun _ => ⟨_, h, rfl⟩, fun _ => hfit⟩
    · rw [if_neg hfit] at h
      refine ⟨fun hh => absurd hh hfit, ?_⟩
      rintro ⟨r, hr, -⟩
      rw [h] at hr
      cases hr
  · by_cases hfit : query.hostname.length ≤ 494
    · rw [if_pos hfit] at h
      refine ⟨fun hh => by omega, fun hh => ?_⟩
      rw [h] at hh
      cases hh
    · rw [if_neg hfit] at h
      exact ⟨fun _ => h, fun _ => by omega⟩

set_option maxRecDepth 100000 in
/-- Claim C1, evaluated on scenario A (hostname `abc123xyz9.google.com`, a
39-byte DNS message): the UDP length field read in network order is
47 = 8 + 39, but bytes 2..3 of the packet read in network order give
17152 = 0x4300, not 67 = 20 + 8 + 39: `tot_len` is stored in host order. -/
theorem tot_len_stored_in_host_order :
    ∃ r, scenarioA = .ok r ∧ r.dnsLen = 39 ∧ net16 r.packet 24 = 8 + r.dnsLen ∧
      net16 r.packet 2 = 17152 ∧ net16 r.packet 2 ≠ 20 + 8 + r.dnsLen ∧
      load16 r.packet 2 = 20 + 8 + r.dnsLen :=
  (okAnd_iff _ _).1 (by decide)

/-! ## Reading the packet image -/

theorem wireImage_drop28 (ws s d : List Nat) (srcPort dstPort : Nat) (hs : s.length = 4)
    (hd : d.length = 4) :
    (wireImage ws s d srcPort dstPort).drop 28 = ws ++ List.replicate (996 - ws.length) 0 := by
  obtain ⟨s0, s1, s2, s3, rfl⟩ := list_length_four s hs
  obtain ⟨d0, d1, d2, d3, rfl⟩ := list_length_four d hd
  simp [wireImage, ipHeader, udpHeader]

theorem wireImage_take28 (ws s d : List Nat) (srcPort dstPort : Nat) (hs : s.length = 4)
    (hd : d.length = 4) :
    (wireImage ws s d srcPort dstPort).take 28 =
      ipHeader ws.length s d (checksum (ipHeader ws.length s d 0)) ++
      udpHeader ws.length srcPort dstPort
        (checksum (pseudoHeader ws.length s d ++ udpHeader ws.length srcPort dstPort 0 ++ ws)) := by
  obtain ⟨s0, s1, s2, s3, rfl⟩ := list_length_four s hs
  obtain ⟨d0, d1, d2, d3, rfl⟩ := list_length_four d hd
  simp [wireImage, ipHeader, udpHeader]

theorem getD_add_drop (p : List Nat) (off i : Nat) :
    p.getD (off + i) 0 = (p.drop off).getD i 0 := by
  simp [List.getD_eq_getElem?_getD, List.getElem?_drop]

theorem getD_take (p : List Nat) (n i : Nat) (h : i < n) :
    p.getD i 0 = (p.take n).getD i 0 := by
  simp [List.getD_eq_getElem?_getD, List.getElem?_take, h]

/-- The length fields of the packet image: the UDP length field holds
`8 + dnsLen` in network order, the `tot_len` field holds `28 + dnsLen` in
host order. -/
theorem wireImage_lengths (ws s d : List Nat) (srcPort dstPort : Nat) (hs : s.length = 4)
    (hd : d.length = 4) (hn : ws.length ≤ 512) :
    net16 (wireImage ws s d srcPort dstPort) 24 = 8 + ws.length ∧
    load16 (wireImage ws s d srcPort dstPort) 2 = 28 + ws.length ∧
    net16 (wireImage ws s d srcPort dstPort) 2 = htons (28 + ws.length) := by
  obtain ⟨s0, s1, s2, s3, rfl⟩ := list_length_four s hs
  obtain ⟨d0, d1, d2, d3, rfl⟩ := list_length_four d hd
  unfold net16 load16 htons
  rw [getD_take _ 28 24 (by norm_num), getD_take _ 28 (24 + 1) (by norm_num),
    getD_take _ 28 2 (by norm_num), getD_take _ 28 (2 + 1) (by norm_num),
    wireImage_take28 ws [s0, s1, s2, s3] [d0, d1, d2, d3] srcPort dstPort rfl rfl]
  simp [ipHeader, udpHeader]
  omega

/-- The DNS header bytes inside the packet `encodeFullPacket` returns. -/
theorem encodeFullPacket_header (query : DNSQuery) (srcIP : List Nat) (srcPort : Nat)
    (dstIP : List Nat) (dstPort : Nat) (h : query.hostname.length ≤ 494) :
    ∃ r, encodeFullPacket query srcIP srcPort dstIP dstPort = .ok r ∧
      slice r.packet 28 12 = dnsHeader query := by
  obtain ⟨qname, hlen, -, hq⟩ := encodeFullPacket_account query srcIP srcPort dstIP dstPort
  rw [if_pos h] at hq
  refine ⟨_, hq, ?_⟩
  simp only [slice]
  rw [wireImage_drop28 _ _ _ _ _ (addrOf_length _) (addrOf_length _)]
  simp [dnsHeader]

/-! ## The DNS header (claim C7) and scenario A (claim C6) -/

/-- Claim C7, as amended. For every query whose hostname has at most 494
bytes, the first 12 bytes of the DNS message in the packet are the query id in
network byte order, the flags bytes `0x01 0x00` (a standard query with the
recursion-desired bit set, `0x0100`), QDCOUNT = 1 and
ANCOUNT = NSCOUNT = ARCOUNT = 0. -/
theorem dns_header_layout (query : DNSQuery) (srcIP : List Nat) (srcPort : Nat)
    (dstIP : List Nat) (dstPort : Nat) (h : query.hostname.length ≤ 494) :
    ∃ r, encodeFullPacket query srcIP srcPort dstIP dstPort = .ok r ∧
      slice r.packet 28 12 =
        [query.queryId / 256 % 256, query.queryId % 256, 0x01, 0x00, 0, 1, 0, 0, 0, 0, 0, 0] ∧
      net16 r.packet 28 = query.queryId % 65536 ∧ net16 r.packet 30 = 0x0100 ∧
      net16 r.packet 32 = 1 ∧ net16 r.packet 34 = 0 ∧ net16 r.packet 36 = 0 ∧
      net16 r.packet 38 = 0 := by
  obtain ⟨r, hr, hs⟩ := encodeFullPacket_header query srcIP srcPort dstIP dstPort h
  refine ⟨r, hr, hs, ?_⟩
  have hg : ∀ i, i < 12 → r.packet.getD (28 + i) 0 = (dnsHeader query).getD i 0 := by
    intro i hi
    rw [getD_add_drop, getD_take _ 12 i hi, ← hs]
    rfl
  have h0 := hg 0 (by norm_num)
  have h1 := hg 1 (by norm_num)
  have h2 := hg 2 (by norm_num)
  have h3 := hg 3 (by norm_num)
  have h4 := hg 4 (by norm_num)
  have h5 := hg 5 (by norm_num)
  have h6 := hg 6 (by norm_num)
  have h7 := hg 7 (by norm_num)
  have h8 := hg 8 (by norm_num)
  have h9 := hg 9 (by norm_num)
  have h10 := hg 10 (by norm_num)
  have h11 := hg 11 (by norm_num)
  simp only [dnsHeader, List.getD_cons_zero, List.getD_cons_succ, Nat.reduceAdd] at h0 h1 h2 h3
  simp only [dnsHeader, List.getD_cons_zero, List.getD_cons_succ, Nat.reduceAdd] at h4 h5 h6 h7
  simp only [dnsHeader, List.getD_cons_zero, List.getD_cons_succ, Nat.reduceAdd] at h8 h9 h10 h11
  simp only [net16, Nat.reduceAdd, h0, h1, h2, h3, h4, h5, h6, h7, h8, h9, h10, h11]
  refine ⟨?_, by norm_num, by norm_num, by norm_num, by norm_num, by norm_num⟩
  omega

/-- Claim C7, as amended, at a concrete input: the query and endpoints of
scenario A. -/
theorem dns_header_layout_witness :
    (str "abc123xyz9.google.com").length ≤ 494 ∧
    ∃ r, encodeFullPacket ⟨str "A", str "abc123xyz9.google.com", 0x1234⟩
        (str "1.2.3.4") 23837 (str "8.8.8.8") 53 = .ok r ∧
      slice r.packet 28 12 = [0x1234 / 256 % 256, 0x1234 % 256, 0x01, 0x00, 0, 1, 0, 0, 0, 0, 0, 0] ∧
      net16 r.packet 28 = 0x1234 % 65536 ∧ net16 r.packet 30 = 0x0100 ∧
      net16 r.packet 32 = 1 ∧ net16 r.packet 34 = 0 ∧ net16 r.packet 36 = 0 ∧
      net16 r.packet 38 = 0 :=
  ⟨by decide, dns_header_layout ⟨str "A", str "abc123xyz9.google.com", 0x1234⟩
    (str "1.2.3.4") 23837 (str "8.8.8.8") 53 (by decide)⟩

set_option maxRecDepth 100000 in
/-- Claim C7 as stated fails: in the packet of scenario A the flags field of
the DNS header, read in network order, is `0x0100` (recursion desired), not
`0x0000`. -/
theorem dns_flags_recursion_desired :
    ∃ r, scenarioA = .ok r ∧ net16 r.packet 30 = 0x0100 ∧ net16 r.packet 30 ≠ 0x0000 :=
  (okAnd_iff _ _).1 (by decide)

set_option maxRecDepth 100000 in
/-- Claim C6, as amended. Scenario A produces a DNS message of 39 bytes and a
UDP length field of 47; the value assigned to `tot_len` is 67 = 28 + 39. -/
theorem scenarioA_lengths :
    ∃ r, scenarioA = .ok r ∧ r.dnsLen = 39 ∧ net16 r.packet 24 = 47 ∧
      load16 r.packet 2 = 67 :=
  (okAnd_iff _ _).1 (by decide)

set_option maxRecDepth 100000 in
/-- Claim C6 as stated fails: scenario A does not produce a 33-byte DNS
message with an IP total length of 61 and a UDP length of 41. -/
theorem scenarioA_not_33_61_41 :
    ¬ ∃ r, scenarioA = .ok r ∧ r.dnsLen = 33 ∧ net16 r.packet 2 = 61 ∧
      net16 r.packet 24 = 41 := by
  have h : okAnd scenarioA (fun r => r.dnsLen = 39) := by decide
  obtain ⟨r0, h0, h39⟩ := (okAnd_iff _ _).1 h
  rintro ⟨r, hr, h33, -⟩
  rw [h0] at hr
  cases hr
  omega

/-! ## The byte count handed to `sendRawPacket` (claim C8) -/

set_option maxRecDepth 100000 in
/-- Claim C8, evaluated on one pass of the run loop (label `abc123xyz9`,
victim 127.0.0.1:23837, server 8.8.8.8): the packet built has the logical
length 20 + 8 + 39 = 67, the byte count passed to `sendRawPacket` is the
constant 20 + 8 + 50 = 78, and `sendto` is handed those 78 bytes. -/
theorem packet_size_is_constant_78 :
    ∃ r c, encodeFullPacket ⟨str "A", str "abc123xyz9.google.com", 0x1234⟩
        (str "127.0.0.1") 23837 (str "8.8.8.8") dnsPort = .ok r ∧
      loopBody (str "abc123xyz9") 0x1234 (str "127.0.0.1") 23837 (str "8.8.8.8") =
        .ok (some c) ∧
      c.packet = r.packet ∧ 20 + 8 + r.dnsLen = 67 ∧ c.packet_size = 78 ∧
      (sendRawPacket c.packet c.packet_size true true true).2 = some (r.packet.take 78) := by
  have h : okAnd (encodeFullPacket ⟨str "A", str "abc123xyz9.google.com", 0x1234⟩
      (str "127.0.0.1") 23837 (str "8.8.8.8") dnsPort) (fun r => r.dnsLen = 39) := by decide
  obtain ⟨r, hr, h39⟩ := (okAnd_iff _ _).1 h
  refine ⟨r, ⟨r.packet, 20 + 8 + 50, str "8.8.8.8"⟩, hr, ?_, rfl, by omega, rfl, rfl⟩
  have ht : str "abc123xyz9" ++ str "." ++ baseDomain = str "abc123xyz9.google.com" := by decide
  have hd : ¬ str "8.8.8.8" = [] := by decide
  unfold loopBody
  simp only [ht, hd, if_false, hr, Exec.ok_bind]

/-! ## Hostnames the encoder does not reject (claim C4) -/

/-- Every hostname is the dot-join of its dot-free labels. -/
theorem exists_labels : ∀ h : List Nat, ∃ labels : List (List Nat),
    labels ≠ [] ∧ (∀ l ∈ labels, DOT ∉ l) ∧ joinDots labels = h := by
  intro h
  induction h with
  | nil => exact ⟨[[]], by simp, by simp, rfl⟩
  | cons x xs ih =>
    obtain ⟨labels, hne, hdot, hj⟩ := ih
    cases labels with
    | nil => exact absurd rfl hne
    | cons l ls =>
      by_cases hx : x = DOT
      · refine ⟨[] :: l :: ls, by simp, ?_, ?_⟩
        · intro m hm
          rcases List.mem_cons.1 hm with rfl | hm
          · simp
          · exact hdot m hm
        · rw [hx, ← hj]; rfl
      · refine ⟨(x :: l) :: ls, by simp, ?_, ?_⟩
        · intro m hm
          rcases List.mem_cons.1 hm with rfl | hm
          · have hl := hdot l (List.mem_cons_self _ _)
            simp only [List.mem_cons, not_or]
            exact ⟨fun e => hx e.symm, hl⟩
          · exact hdot m (List.mem_cons_of_mem _ hm)
        · rw [← hj]
          cases ls with
          | nil => rfl
          | cons l2 ls => rfl

/-- The QNAME section inside the packet, for a hostname given by its labels. -/
theorem encodeFullPacket_labels (ty : List Nat) (queryId : Nat) (labels : List (List Nat))
    (srcIP : List Nat) (srcPort : Nat) (dstIP : List Nat) (dstPort : Nat)
    (hne : labels ≠ []) (hdot : ∀ l ∈ labels, DOT ∉ l)
    (hfit : (joinDots labels).length ≤ 494) :
    ∃ r, encodeFullPacket ⟨ty, joinDots labels, queryId⟩ srcIP srcPort dstIP dstPort = .ok r ∧
      r.dnsLen = (joinDots labels).length + 18 ∧
      (qnameOf labels).length = (joinDots labels).length + 2 ∧
      r.packet.drop 40 = qnameOf labels ++
        ([0, 1, 0, 1] ++ List.replicate (996 - ((joinDots labels).length + 18)) 0) := by
  have hdns := encodeDnsIn_labels 512 ty queryId labels hne hdot
  rw [if_pos (by omega)] at hdns
  obtain ⟨qn, hqn, -, hacc⟩ := encodeDnsIn_account 512 ⟨ty, joinDots labels, queryId⟩
  rw [if_pos (by simpa using hfit), hdns] at hacc
  have hql : (qnameOf labels).length = (joinDots labels).length + 2 := by
    have := congrArg (fun b => b.dnsPos) (Exec.ok.inj hacc)
    simp [DnsBuffer.ofWritten, dnsHeader] at this hqn
    omega
  have hl : (dnsHeader ⟨ty, joinDots labels, queryId⟩ ++ qnameOf labels ++ [0, 1, 0, 1]).length =
      (joinDots labels).length + 18 := by
    simp [dnsHeader, hql]
  refine ⟨_, encodeFullPacket_of_dns _ srcIP srcPort dstIP dstPort _ (by omega) hdns, hl, hql, ?_⟩
  have h40 : ∀ p : List Nat, p.drop 40 = (p.drop 28).drop 12 := by
    intro p; rw [List.drop_drop]
  simp only [h40]
  rw [wireImage_drop28 _ _ _ _ _ (addrOf_length _) (addrOf_length _), hl]
  simp [dnsHeader]

/-- Claim C4, as amended. `encodeFullPacket` validates nothing and has no
error result: for every hostname of at most 494 bytes, the empty hostname and
hostnames with zero-length labels or labels longer than 63 bytes included, it
returns a packet whose DNS message has hostname length + 18 bytes, in which
every dot-separated label of the hostname follows a length byte equal to the
label length modulo 256. -/
theorem encoder_accepts_every_hostname (query : DNSQuery) (srcIP : List Nat) (srcPort : Nat)
    (dstIP : List Nat) (dstPort : Nat) (hfit : query.hostname.length ≤ 494) :
    ∃ labels r, joinDots labels = query.hostname ∧ (∀ l ∈ labels, DOT ∉ l) ∧
      encodeFullPacket query srcIP srcPort dstIP dstPort = .ok r ∧
      r.dnsLen = query.hostname.length + 18 ∧
      slice r.packet 40 (query.hostname.length + 2) = qnameOf labels := by
  obtain ⟨labels, hne, hdot, hj⟩ := exists_labels query.hostname
  obtain ⟨r, hr, hlen, hql, hdrop⟩ := encodeFullPacket_labels query.type query.queryId labels
    srcIP srcPort dstIP dstPort hne hdot (by rw [hj]; exact hfit)
  have hq : (⟨query.type, joinDots labels, query.queryId⟩ : DNSQuery) = query := by
    rw [hj]
  rw [hq] at hr
  rw [hj] at hlen hql
  refine ⟨labels, r, hj, hdot, hr, hlen, ?_⟩
  unfold slice
  rw [hdrop, ← hql]
  exact List.take_left _ _

/-- Claim C4, as amended, at a concrete input: the hostname `a..b`, which has
a zero-length label. -/
theorem encoder_accepts_every_hostname_witness :
    (str "a..b").length ≤ 494 ∧
    ∃ labels r, joinDots labels = str "a..b" ∧ (∀ l ∈ labels, DOT ∉ l) ∧
      encodeFullPacket ⟨str "A", str "a..b", 7⟩ (str "1.2.3.4") 23837 (str "8.8.8.8") 53 =
        .ok r ∧
      r.dnsLen = (str "a..b").length + 18 ∧
      slice r.packet 40 ((str "a..b").length + 2) = qnameOf labels :=
  ⟨by decide, encoder_accepts_every_hostname ⟨str "A", str "a..b", 7⟩ (str "1.2.3.4") 23837
    (str "8.8.8.8") 53 (by decide)⟩

set_option maxRecDepth 100000 in
/-- Claim C4 as stated fails: the empty hostname, a hostname with a
zero-length label, a 64-byte label and a 300-byte label (whose length byte is
truncated to 44) all yield a packet and no error; a 495-byte hostname makes
the function store outside `dnsBuffer`. -/
theorem encoder_rejects_nothing :
    (∃ r, encodeFullPacket ⟨str "A", str "", 7⟩ (str "1.2.3.4") 23837 (str "8.8.8.8") 53 =
        .ok r ∧ r.dnsLen = 18 ∧ slice r.packet 40 2 = [0, 0]) ∧
    (∃ r, encodeFullPacket ⟨str "A", str "a..b", 7⟩ (str "1.2.3.4") 23837 (str "8.8.8.8") 53 =
        .ok r ∧ slice r.packet 40 6 = [1, 97, 0, 1, 98, 0]) ∧
    (∃ r, encodeFullPacket ⟨str "A", List.replicate 64 97, 7⟩ (str "1.2.3.4") 23837
        (str "8.8.8.8") 53 = .ok r ∧ r.packet.getD 40 0 = 64) ∧
    (∃ r, encodeFullPacket ⟨str "A", List.replicate 300 97, 7⟩ (str "1.2.3.4") 23837
        (str "8.8.8.8") 53 = .ok r ∧ r.packet.getD 40 0 = 44) ∧
    encodeFullPacket ⟨str "A", List.replicate 495 97, 7⟩ (str "1.2.3.4") 23837
        (str "8.8.8.8") 53 = .outOfBounds := by
  refine ⟨(okAnd_iff _ _).1 (by decide), (okAnd_iff _ _).1 (by decide),
    (okAnd_iff _ _).1 (by decide), (okAnd_iff _ _).1 (by decide), ?_⟩
  obtain ⟨qn, -, -, h⟩ := encodeFullPacket_account ⟨str "A", List.replicate 495 97, 7⟩
    (str "1.2.3.4") 23837 (str "8.8.8.8") 53
  rw [h, if_neg (by simp)]

/-! ## QNAME round trip (claim C3) -/

theorem decodeLabels_qnameOf : ∀ (labels : List (List Nat)),
    (∀ l ∈ labels, 1 ≤ l.length ∧ l.length ≤ 255 ∧ ∀ b ∈ l, b < 256) →
    ∀ (fuel : Nat) (tail : List Nat), (qnameOf labels).length ≤ fuel →
    decodeLabels fuel (qnameOf labels ++ tail) = some labels := by
  intro labels
  induction labels with
  | nil =>
    intro _ fuel tail hf
    cases fuel with
    | zero => simp [qnameOf] at hf
    | succ fuel => simp [qnameOf, decodeLabels]
  | cons l ls ih =>
    intro hl fuel tail hf
    obtain ⟨h1, h255, hb⟩ := hl l (List.mem_cons_self _ _)
    have hmod : l.length % 256 = l.length := Nat.mod_eq_of_lt (by omega)
    have hmap : l.map (· % 256) = l := by
      conv_rhs => rw [← List.map_id l]
      exact List.map_congr_left (fun b hb' => Nat.mod_eq_of_lt (hb b hb'))
    have hq : qnameOf (l :: ls) ++ tail = l.length :: (l ++ (qnameOf ls ++ tail)) := by
      simp [qnameOf, hmod, hmap]
    have hlen : (qnameOf (l :: ls)).length = 1 + l.length + (qnameOf ls).length := by
      simp [qnameOf]; omega
    cases fuel with
    | zero => omega
    | succ fuel =>
      rw [hq, decodeLabels]
      have hne : ¬ l.length = 0 := by omega
      have hge : ¬ (l ++ (qnameOf ls ++ tail)).length < l.length := by simp
      simp only [hne, hge, if_false, List.drop_left, List.take_left]
      rw [ih (fun m hm => hl m (List.mem_cons_of_mem _ hm)) fuel tail (by omega)]
      rfl

/-- Claim C3. For every hostname made of 1 to 4 dot-separated labels, each of
1 to 63 bytes and containing no `'.'`, the QNAME section of the packet (from
byte 40), decoded by reading a length byte and that many label bytes until a
zero length byte and joining the labels with `'.'`, is the hostname. -/
theorem qname_roundtrip (ty : List Nat) (queryId : Nat) (labels : List (List Nat))
    (srcIP : List Nat) (srcPort : Nat) (dstIP : List Nat) (dstPort : Nat)
    (hn : 1 ≤ labels.length ∧ labels.length ≤ 4)
    (hl : ∀ l ∈ labels, 1 ≤ l.length ∧ l.length ≤ 63 ∧ DOT ∉ l ∧ ∀ b ∈ l, b < 256) :
    ∃ r, encodeFullPacket ⟨ty, joinDots labels, queryId⟩ srcIP srcPort dstIP dstPort = .ok r ∧
      decodeQName (r.packet.drop 40) = some (joinDots labels) := by
  have hne : labels ≠ [] := by
    intro h; rw [h] at hn; simp at hn
  have hlen := length_joinDots_le labels 63 (fun l h => (hl l h).2.1)
  have hfit : (joinDots labels).length ≤ 494 := by
    have := hn.2
    omega
  obtain ⟨r, hr, -, hql, hdrop⟩ := encodeFullPacket_labels ty queryId labels srcIP srcPort
    dstIP dstPort hne (fun l h => (hl l h).2.2.1) hfit
  refine ⟨r, hr, ?_⟩
  unfold decodeQName
  rw [hdrop, decodeLabels_qnameOf labels
    (fun l h => ⟨(hl l h).1, by have := (hl l h).2.1; omega, (hl l h).2.2.2⟩) _ _ (by simp)]
  rfl

/-- Claim C3 at a concrete input: the three labels of
`abc123xyz9.google.com`. -/
theorem qname_roundtrip_witness :
    (1 ≤ [str "abc123xyz9", str "google", str "com"].length ∧
      [str "abc123xyz9", str "google", str "com"].length ≤ 4) ∧
    (∀ l ∈ [str "abc123xyz9", str "google", str "com"],
      1 ≤ l.length ∧ l.length ≤ 63 ∧ DOT ∉ l ∧ ∀ b ∈ l, b < 256) ∧
    ∃ r, encodeFullPacket ⟨str "A", joinDots [str "abc123xyz9", str "google", str "com"], 0x1234⟩
        (str "1.2.3.4") 23837 (str "8.8.8.8") 53 = .ok r ∧
      decodeQName (r.packet.drop 40) =
        some (joinDots [str "abc123xyz9", str "google", str "com"]) :=
  ⟨by decide, by decide, qname_roundtrip (str "A") 0x1234
    [str "abc123xyz9", str "google", str "com"] (str "1.2.3.4") 23837 (str "8.8.8.8") 53
    (by decide) (by decide)⟩

/-! ## Both checksums of the packet (claim C5) -/

theorem wordSum_le : ∀ l : List Nat, (∀ b ∈ l, b < 256) → 2 * wordSum l ≤ 65535 * l.length := by
  intro l
  induction l using wordSum.induct with
  | case1 b0 b1 rest ih =>
    intro h
    have h0 := h b0 (by simp)
    have h1 := h b1 (by simp)
    have hr := ih (fun b hb => h b (by simp [hb]))
    have e : wordSum (b0 :: b1 :: rest) = (b0 + 256 * b1) + wordSum rest := rfl
    rw [e]
    simp only [List.length_cons]
    omega
  | case2 b =>
    intro h
    have h0 := h b (by simp)
    have e : wordSum [b] = b := rfl
    rw [e]
    simp only [List.length_cons, List.length_nil]
    omega
  | case3 => intro _; simp [wordSum]

theorem wordSum_padEven : ∀ l : List Nat, wordSum (padEven l) = wordSum l := by
  have key : ∀ l : List Nat, l.length % 2 = 1 → wordSum (l ++ [0]) = wordSum l := by
    intro l
    induction l using wordSum.induct with
    | case1 b0 b1 rest ih =>
      intro h
      have hr : rest.length % 2 = 1 := by simp at h; omega
      have e1 : wordSum (b0 :: b1 :: rest ++ [0]) = (b0 + 256 * b1) + wordSum (rest ++ [0]) := rfl
      have e2 : wordSum (b0 :: b1 :: rest) = (b0 + 256 * b1) + wordSum rest := rfl
      rw [e1, e2, ih hr]
    | case2 b => intro _; simp [wordSum]
    | case3 => intro h; simp at h
  intro l
  unfold padEven
  split
  · rfl
  · exact key l (by omega)

theorem netSum_padEven : ∀ l : List Nat, netSum (padEven l) = netSum l := by
  have key : ∀ l : List Nat, l.length % 2 = 1 → netSum (l ++ [0]) = netSum l := by
    intro l
    induction l using netSum.induct with
    | case1 b0 b1 rest ih =>
      intro h
      have hr : rest.length % 2 = 1 := by simp at h; omega
      have e1 : netSum (b0 :: b1 :: rest ++ [0]) = (256 * b0 + b1) + netSum (rest ++ [0]) := rfl
      have e2 : netSum (b0 :: b1 :: rest) = (256 * b0 + b1) + netSum rest := rfl
      rw [e1, e2, ih hr]
    | case2 b => intro _; simp [netSum]
    | case3 => intro h; simp at h
  intro l
  unfold padEven
  split
  · rfl
  · exact key l (by omega)

/-- The two checksum spans of the packet image. -/
theorem wireImage_spans (ws s d : List Nat) (srcPort dstPort : Nat) (hs : s.length = 4)
    (hd : d.length = 4) :
    ipSpan (wireImage ws s d srcPort dstPort) =
      ipHeader ws.length s d (checksum (ipHeader ws.length s d 0)) ∧
    udpSpan (wireImage ws s d srcPort dstPort) ws.length =
      pseudoHeader ws.length s d ++ udpHeader ws.length srcPort dstPort
        (checksum (pseudoHeader ws.length s d ++ udpHeader ws.length srcPort dstPort 0 ++ ws))
        ++ ws := by
  obtain ⟨s0, s1, s2, s3, rfl⟩ := list_length_four s hs
  obtain ⟨d0, d1, d2, d3, rfl⟩ := list_length_four d hd
  constructor
  · simp [ipSpan, slice, wireImage, ipHeader, udpHeader]
  · simp [udpSpan, slice, wireImage, ipHeader, udpHeader, pseudoHeader]
    rw [Nat.add_comm 8]
    simp [List.take]

theorem ipHeader_field (n s0 s1 s2 s3 d0 d1 d2 d3 c : Nat) :
    ipHeader n [s0, s1, s2, s3] [d0, d1, d2, d3] c =
      writeAt (ipHeader n [s0, s1, s2, s3] [d0, d1, d2, d3] 0) 10 (store16 c) ∧
    writeAt (ipHeader n [s0, s1, s2, s3] [d0, d1, d2, d3] c) 10 [0, 0] =
      ipHeader n [s0, s1, s2, s3] [d0, d1, d2, d3] 0 ∧
    slice (ipHeader n [s0, s1, s2, s3] [d0, d1, d2, d3] 0) 10 2 = [0, 0] := by
  simp [writeAt, store16, ipHeader, slice]

theorem udpSpan_field (n s0 s1 s2 s3 d0 d1 d2 d3 sp dp c : Nat) (ws : List Nat) :
    pseudoHeader n [s0, s1, s2, s3] [d0, d1, d2, d3] ++ udpHeader n sp dp c ++ ws =
      writeAt (pseudoHeader n [s0, s1, s2, s3] [d0, d1, d2, d3] ++ udpHeader n sp dp 0 ++ ws) 18
        (store16 c) ∧
    writeAt (pseudoHeader n [s0, s1, s2, s3] [d0, d1, d2, d3] ++ udpHeader n sp dp c ++ ws) 18
        [0, 0] =
      pseudoHeader n [s0, s1, s2, s3] [d0, d1, d2, d3] ++ udpHeader n sp dp 0 ++ ws ∧
    slice (pseudoHeader n [s0, s1, s2, s3] [d0, d1, d2, d3] ++ udpHeader n sp dp 0 ++ ws) 18 2 =
      [0, 0] := by
  simp [writeAt, store16, pseudoHeader, udpHeader, slice]

theorem ipHeader_lt (n : Nat) (s d : List Nat) (hs : ∀ b ∈ s, b < 256) (hd : ∀ b ∈ d, b < 256) :
    ∀ b ∈ ipHeader n s d 0, b < 256 := by
  intro b hb
  simp only [ipHeader, List.mem_append, List.mem_cons, List.mem_singleton, List.not_mem_nil,
    or_false] at hb
  rcases hb with (hb | hb) | hb
  · rcases hb with h | h | h | h | h | h | h | h | h | h | h | h <;> omega
  · exact hs b hb
  · exact hd b hb

theorem udpSpan_lt (n sp dp : Nat) (s d ws : List Nat) (hs : ∀ b ∈ s, b < 256)
    (hd : ∀ b ∈ d, b < 256) (hw : ∀ b ∈ ws, b < 256) :
    ∀ b ∈ pseudoHeader n s d ++ udpHeader n sp dp 0 ++ ws, b < 256 := by
  intro b hb
  simp only [pseudoHeader, udpHeader, List.mem_append, List.mem_cons, List.mem_singleton,
    List.not_mem_nil, or_false] at hb
  rcases hb with (((hb | hb) | hb) | hb) | hb
  · exact hs b hb
  · exact hd b hb
  · rcases hb with h | h | h | h <;> omega
  · rcases hb with h | h | h | h | h | h | h | h <;> omega
  · exact hw b hb

theorem wireImage_checks (ws s d : List Nat) (srcPort dstPort : Nat) (hs : s.length = 4)
    (hd : d.length = 4) :
    load16 (wireImage ws s d srcPort dstPort) 10 = checksum (ipHeader ws.length s d 0) ∧
    load16 (wireImage ws s d srcPort dstPort) 26 =
      checksum (pseudoHeader ws.length s d ++ udpHeader ws.length srcPort dstPort 0 ++ ws) := by
  obtain ⟨s0, s1, s2, s3, rfl⟩ := list_length_four s hs
  obtain ⟨d0, d1, d2, d3, rfl⟩ := list_length_four d hd
  have h1 := checksum_lt (ipHeader ws.length [s0, s1, s2, s3] [d0, d1, d2, d3] 0)
  have h2 := checksum_lt (pseudoHeader ws.length [s0, s1, s2, s3] [d0, d1, d2, d3] ++
    udpHeader ws.length srcPort dstPort 0 ++ ws)
  unfold load16
  rw [getD_take _ 28 10 (by norm_num), getD_take _ 28 (10 + 1) (by norm_num),
    getD_take _ 28 26 (by norm_num), getD_take _ 28 (26 + 1) (by norm_num),
    wireImage_take28 ws [s0, s1, s2, s3] [d0, d1, d2, d3] srcPort dstPort rfl rfl]
  generalize checksum (ipHeader ws.length [s0, s1, s2, s3] [d0, d1, d2, d3] 0) = c1 at h1 ⊢
  generalize checksum (pseudoHeader ws.length [s0, s1, s2, s3] [d0, d1, d2, d3] ++
    udpHeader ws.length srcPort dstPort 0 ++ ws) = c2 at h2 ⊢
  simp [ipHeader, udpHeader]
  omega

/-- Both checksums of the packet image: the stored values are the checksums of
the spans with the field zero, and the spans with the stored values in place
sum to `0xFFFF` in one's-complement arithmetic, in either byte order. -/
theorem wireImage_checksums (ws s d : List Nat) (srcPort dstPort : Nat) (hs : s.length = 4)
    (hd : d.length = 4) (hsb : ∀ b ∈ s, b < 256) (hdb : ∀ b ∈ d, b < 256)
    (hwb : ∀ b ∈ ws, b < 256) (hn : ws.length ≤ 512) :
    load16 (wireImage ws s d srcPort dstPort) 10 =
      checksum (writeAt (ipSpan (wireImage ws s d srcPort dstPort)) 10 [0, 0]) ∧
    load16 (wireImage ws s d srcPort dstPort) 26 =
      checksum (writeAt (udpSpan (wireImage ws s d srcPort dstPort) ws.length) 18 [0, 0]) ∧
    onesFold (netSum (ipSpan (wireImage ws s d srcPort dstPort))) = 65535 ∧
    onesFold (wordSum (ipSpan (wireImage ws s d srcPort dstPort))) = 65535 ∧
    onesFold (netSum (padEven (udpSpan (wireImage ws s d srcPort dstPort) ws.length))) = 65535 ∧
    onesFold (wordSum (padEven (udpSpan (wireImage ws s d srcPort dstPort) ws.length))) =
      65535 := by
  obtain ⟨hip, hudp⟩ := wireImage_spans ws s d srcPort dstPort hs hd
  obtain ⟨hc1, hc2⟩ := wireImage_checks ws s d srcPort dstPort hs hd
  have hb1 := wordSum_le _ (ipHeader_lt ws.length s d hsb hdb)
  have hb2 := wordSum_le _ (udpSpan_lt ws.length srcPort dstPort s d ws hsb hdb hwb)
  obtain ⟨s0, s1, s2, s3, rfl⟩ := list_length_four s hs
  obtain ⟨d0, d1, d2, d3, rfl⟩ := list_length_four d hd
  have hl1 : (ipHeader ws.length [s0, s1, s2, s3] [d0, d1, d2, d3] 0).length = 20 := rfl
  have hl2 : (pseudoHeader ws.length [s0, s1, s2, s3] [d0, d1, d2, d3] ++
      udpHeader ws.length srcPort dstPort 0 ++ ws).length = 20 + ws.length := by
    simp [pseudoHeader, udpHeader]; omega
  rw [hl1] at hb1
  rw [hl2] at hb2
  obtain ⟨i1, i2, i3⟩ := ipHeader_field ws.length s0 s1 s2 s3 d0 d1 d2 d3
    (checksum (ipHeader ws.length [s0, s1, s2, s3] [d0, d1, d2, d3] 0))
  obtain ⟨u1, u2, u3⟩ := udpSpan_field ws.length s0 s1 s2 s3 d0 d1 d2 d3 srcPort dstPort
    (checksum (pseudoHeader ws.length [s0, s1, s2, s3] [d0, d1, d2, d3] ++
      udpHeader ws.length srcPort dstPort 0 ++ ws)) ws
  obtain ⟨-, r1⟩ := checksum_complete (ipHeader ws.length [s0, s1, s2, s3] [d0, d1, d2, d3] 0)
    10 (by norm_num) (by rw [hl1]; norm_num) i3
  obtain ⟨-, r2⟩ := checksum_complete (pseudoHeader ws.length [s0, s1, s2, s3] [d0, d1, d2, d3] ++
      udpHeader ws.length srcPort dstPort 0 ++ ws) 18 (by norm_num) (by rw [hl2]; omega) u3
  obtain ⟨r1w, r1n⟩ := r1 (by omega)
  obtain ⟨r2w, r2n⟩ := r2 (by omega)
  rw [← i1] at r1w r1n
  rw [← u1] at r2w r2n
  rw [wordSum_padEven, netSum_padEven, hip, hudp, i2, u2]
  exact ⟨hc1, hc2, r1n, r1w, r2n, r2w⟩

/-- Claim C5. For every query whose hostname has at most 494 bytes the packet
carries two valid checksums: bytes 10..11 hold `checksum` of the 20-byte IP
header with that field zero, bytes 26..27 hold `checksum` of the pseudo header
(source address, destination address, zero byte, protocol 17, UDP length)
followed by the UDP header with that field zero and the DNS message, whose UDP
length field is `8 + dnsLen`; the one's-complement word sum of either span
with the stored checksum in place, the UDP span zero-padded to even length,
folds to `0xFFFF`, whether the words are read in network or in host order. -/
theorem checksums_valid (query : DNSQuery) (srcIP : List Nat) (srcPort : Nat)
    (dstIP : List Nat) (dstPort : Nat) (hfit : query.hostname.length ≤ 494) :
    ∃ r, encodeFullPacket query srcIP srcPort dstIP dstPort = .ok r ∧
      net16 r.packet 24 = 8 + r.dnsLen ∧
      load16 r.packet 10 = checksum (writeAt (ipSpan r.packet) 10 [0, 0]) ∧
      load16 r.packet 26 = checksum (writeAt (udpSpan r.packet r.dnsLen) 18 [0, 0]) ∧
      onesFold (netSum (ipSpan r.packet)) = 0xFFFF ∧
      onesFold (wordSum (ipSpan r.packet)) = 0xFFFF ∧
      onesFold (netSum (padEven (udpSpan r.packet r.dnsLen))) = 0xFFFF ∧
      onesFold (wordSum (padEven (udpSpan r.packet r.dnsLen))) = 0xFFFF := by
  obtain ⟨qname, hlen, hlt, hq⟩ := encodeFullPacket_account query srcIP srcPort dstIP dstPort
  rw [if_pos hfit] at hq
  have hl : (dnsHeader query ++ qname ++ [0, 1, 0, 1]).length = query.hostname.length + 18 := by
    simp [dnsHeader, hlen]
  have hwb : ∀ b ∈ dnsHeader query ++ qname ++ [0, 1, 0, 1], b < 256 := by
    intro b hb
    simp only [dnsHeader, List.mem_append, List.mem_cons, List.mem_singleton, List.not_mem_nil,
      or_false] at hb
    rcases hb with (hb | hb) | hb
    · rcases hb with h | h | h | h | h | h | h | h | h | h | h | h <;> omega
    · exact hlt b hb
    · rcases hb with h | h | h | h <;> omega
  have hmain := wireImage_checksums (dnsHeader query ++ qname ++ [0, 1, 0, 1]) (addrOf srcIP)
    (addrOf dstIP) srcPort dstPort (addrOf_length _) (addrOf_length _) (addrOf_lt _) (addrOf_lt _)
    hwb (by omega)
  have hlenf := (wireImage_lengths (dnsHeader query ++ qname ++ [0, 1, 0, 1]) (addrOf srcIP)
    (addrOf dstIP) srcPort dstPort (addrOf_length _) (addrOf_length _) (by omega)).1
  rw [hl] at hmain hlenf
  exact ⟨_, hq, hlenf, hmain⟩

/-- Claim C5 at a concrete input: the query and endpoints of scenario A. -/
theorem checksums_valid_witness :
    (str "abc123xyz9.google.com").length ≤ 494 ∧
    ∃ r, encodeFullPacket ⟨str "A", str "abc123xyz9.google.com", 0x1234⟩
        (str "1.2.3.4") 23837 (str "8.8.8.8") 53 = .ok r ∧
      net16 r.packet 24 = 8 + r.dnsLen ∧
      load16 r.packet 10 = checksum (writeAt (ipSpan r.packet) 10 [0, 0]) ∧
      load16 r.packet 26 = checksum (writeAt (udpSpan r.packet r.dnsLen) 18 [0, 0]) ∧
      onesFold (netSum (ipSpan r.packet)) = 0xFFFF ∧
      onesFold (wordSum (ipSpan r.packet)) = 0xFFFF ∧
      onesFold (netSum (padEven (udpSpan r.packet r.dnsLen))) = 0xFFFF ∧
      onesFold (wordSum (padEven (udpSpan r.packet r.dnsLen))) = 0xFFFF :=
  ⟨by decide, checksums_valid ⟨str "A", str "abc123xyz9.google.com", 0x1234⟩
    (str "1.2.3.4") 23837 (str "8.8.8.8") 53 (by decide)⟩

/-! ## The checksum round trip (claim C2) -/

theorem wordSum_zero_field (buf : List Nat) (k : Nat) (hk : k % 2 = 0)
    (hlen : k + 2 ≤ buf.length) (hz : slice buf k 2 = [0, 0]) :
    wordSum buf = wordSum (buf.take k) + wordSum (buf.drop (k + 2)) := by
  have htk : (buf.take k).length % 2 = 0 := by simp; omega
  have h1 := split_at_field buf k
  rw [hz] at h1
  have e0 : wordSum ([0, 0] ++ buf.drop (k + 2)) = (0 + 256 * 0) + wordSum (buf.drop (k + 2)) :=
    rfl
  conv_lhs => rw [h1]
  rw [wordSum_append _ _ htk, e0]
  omega

theorem wordSum_cons_cons (a b : Nat) (l : List Nat) :
    wordSum (a :: b :: l) = (a + 256 * b) + wordSum l := rfl

theorem slice_zero_two (a b : Nat) (l : List Nat) : slice (a :: b :: l) 0 2 = [a, b] := rfl

theorem wordSum_replicate_ff : ∀ n : Nat, wordSum (List.replicate (2 * n) 255) = 65535 * n := by
  intro n
  induction n with
  | zero => rfl
  | succ n ih =>
    have e : List.replicate (2 * (n + 1)) 255 = 255 :: 255 :: List.replicate (2 * n) 255 := by
      rw [show 2 * (n + 1) = 2 * n + 1 + 1 by omega, List.replicate_succ, List.replicate_succ]
    have e2 : wordSum (255 :: 255 :: List.replicate (2 * n) 255) =
        (255 + 256 * 255) + wordSum (List.replicate (2 * n) 255) := rfl
    rw [e, e2, ih]
    omega

/-- Claim C2, as amended. For every even-length byte sequence of at most
131076 bytes that contains a 16-bit checksum field at an even offset set to
zero, storing the value returned by `checksum` into that field yields a
sequence whose folded one's-complement 16-bit word sum is `0xFFFF`, in host
and in network byte order, and on which `checksum` returns 0. -/
theorem checksum_roundtrip (buf : List Nat) (k : Nat) (hb : ∀ b ∈ buf, b < 256)
    (heven : buf.length % 2 = 0) (hk : k % 2 = 0) (hlen : k + 2 ≤ buf.length)
    (hz : slice buf k 2 = [0, 0]) (hsize : buf.length ≤ 131076) :
    onesFold (wordSum (writeAt buf k (store16 (checksum buf)))) = 0xFFFF ∧
    onesFold (netSum (writeAt buf k (store16 (checksum buf)))) = 0xFFFF ∧
    checksum (writeAt buf k (store16 (checksum buf))) = 0 := by
  have h1 := wordSum_le (buf.take k) (fun b hb' => hb b (List.mem_of_mem_take hb'))
  have h2 := wordSum_le (buf.drop (k + 2)) (fun b hb' => hb b (List.mem_of_mem_drop hb'))
  have h3 := wordSum_zero_field buf k hk hlen hz
  have hl1 : (buf.take k).length = k := by simp; omega
  have hl2 : (buf.drop (k + 2)).length = buf.length - (k + 2) := by simp
  rw [hl1] at h1
  rw [hl2] at h2
  obtain ⟨hc, hs⟩ := checksum_complete buf k hk hlen hz
  obtain ⟨hw, hn⟩ := hs (by omega)
  exact ⟨hw, hn, hc⟩

/-- Claim C2, as amended, at a concrete input: the IP header of scenario A
with its checksum field, at offset 10, zero. -/
theorem checksum_roundtrip_witness :
    (∀ b ∈ [69, 0, 67, 0, 212, 49, 0, 0, 255, 17, 0, 0, 1, 2, 3, 4, 8, 8, 8, 8], b < 256) ∧
    [69, 0, 67, 0, 212, 49, 0, 0, 255, 17, 0, 0, 1, 2, 3, 4, 8, 8, 8, 8].length % 2 = 0 ∧
    10 % 2 = 0 ∧
    10 + 2 ≤ [69, 0, 67, 0, 212, 49, 0, 0, 255, 17, 0, 0, 1, 2, 3, 4, 8, 8, 8, 8].length ∧
    slice [69, 0, 67, 0, 212, 49, 0, 0, 255, 17, 0, 0, 1, 2, 3, 4, 8, 8, 8, 8] 10 2 = [0, 0] ∧
    [69, 0, 67, 0, 212, 49, 0, 0, 255, 17, 0, 0, 1, 2, 3, 4, 8, 8, 8, 8].length ≤ 131076 ∧
    onesFold (wordSum (writeAt [69, 0, 67, 0, 212, 49, 0, 0, 255, 17, 0, 0, 1, 2, 3, 4, 8, 8, 8, 8]
      10 (store16 (checksum
        [69, 0, 67, 0, 212, 49, 0, 0, 255, 17, 0, 0, 1, 2, 3, 4, 8, 8, 8, 8])))) = 0xFFFF ∧
    onesFold (netSum (writeAt [69, 0, 67, 0, 212, 49, 0, 0, 255, 17, 0, 0, 1, 2, 3, 4, 8, 8, 8, 8]
      10 (store16 (checksum
        [69, 0, 67, 0, 212, 49, 0, 0, 255, 17, 0, 0, 1, 2, 3, 4, 8, 8, 8, 8])))) = 0xFFFF ∧
    checksum (writeAt [69, 0, 67, 0, 212, 49, 0, 0, 255, 17, 0, 0, 1, 2, 3, 4, 8, 8, 8, 8]
      10 (store16 (checksum
        [69, 0, 67, 0, 212, 49, 0, 0, 255, 17, 0, 0, 1, 2, 3, 4, 8, 8, 8, 8]))) = 0 :=
  ⟨by decide, by decide, by decide, by decide, by decide, by decide,
    checksum_roundtrip [69, 0, 67, 0, 212, 49, 0, 0, 255, 17, 0, 0, 1, 2, 3, 4, 8, 8, 8, 8] 10
      (by decide) (by decide) (by decide) (by decide) (by decide) (by decide)⟩

/-- Claim C2 as stated fails on a sequence of 131078 bytes (a zero checksum
field followed by 65538 words `0xFFFF`): the 32-bit sum of `checksum` wraps,
the value returned is 1, and the sequence completed with it has the folded
one's-complement word sum 1, not `0xFFFF`, although `checksum` returns 0 on
it. -/
theorem checksum_roundtrip_wraps :
    (∀ b ∈ wrapBuf, b < 256) ∧ wrapBuf.length = 131078 ∧ slice wrapBuf 0 2 = [0, 0] ∧
    checksum wrapBuf = 1 ∧
    onesFold (wordSum (writeAt wrapBuf 0 (store16 (checksum wrapBuf)))) = 1 ∧
    onesFold (wordSum (writeAt wrapBuf 0 (store16 (checksum wrapBuf)))) ≠ 0xFFFF ∧
    checksum (writeAt wrapBuf 0 (store16 (checksum wrapBuf))) = 0 := by
  have hws : wordSum wrapBuf = 4295032830 := by
    unfold wrapBuf
    rw [wordSum_cons_cons, wordSum_replicate_ff]
  have hc : checksum wrapBuf = 1 := by
    rw [checksum_eq, hws]
    norm_num
  have hz : slice wrapBuf 0 2 = [0, 0] := slice_zero_two 0 0 _
  have hlen : wrapBuf.length = 131078 := by
    unfold wrapBuf
    rw [List.length_cons, List.length_cons, List.length_replicate]
  have hw : wordSum (writeAt wrapBuf 0 (store16 (checksum wrapBuf))) = 4295032831 := by
    have := wordSum_writeAt wrapBuf 0 (checksum wrapBuf % 256) (checksum wrapBuf / 256 % 256)
      (by norm_num) (by rw [hlen]; norm_num) hz
    unfold store16
    rw [this, hws, hc]
  have hf : onesFold (wordSum (writeAt wrapBuf 0 (store16 (checksum wrapBuf)))) = 1 := by
    rw [hw, onesFold_eq]
    norm_num
  refine ⟨?_, hlen, hz, hc, hf, by rw [hf]; norm_num, ?_⟩
  · intro b hb
    unfold wrapBuf at hb
    rcases List.mem_cons.1 hb with rfl | hb
    · norm_num
    · rcases List.mem_cons.1 hb with rfl | hb
      · norm_num
      · rw [List.eq_of_mem_replicate hb]; norm_num
  · exact (checksum_complete wrapBuf 0 (by norm_num) (by rw [hlen]; norm_num) hz).1

/-! ## The run loop (claim C9) -/

theorem sentCount_le (outcomes : Nat → Outcome) : ∀ k, sentCount outcomes k ≤ k := by
  intro k
  induction k with
  | zero => simp [sentCount]
  | succ k ih => simp only [sentCount]; split <;> omega

theorem loopStep_sentCount (outcomes : Nat → Outcome) (s : LoopState)
    (h : s.i = sentCount outcomes s.attempts) :
    (loopStep s (outcomes s.attempts)).i =
        sentCount outcomes (loopStep s (outcomes s.attempts)).attempts ∧
      (loopStep s (outcomes s.attempts)).attempts = s.attempts + 1 := by
  cases ho : outcomes s.attempts <;> simp [loopStep, sentCount, ho, h]

/-- When the run loop returns, the exit status is 0, the counter equals the
attempt count asked for, and it counts the successful passes made. -/
theorem runLoop_result (n : Nat) (outcomes : Nat → Outcome) : ∀ (fuel : Nat) (s : LoopState)
    (r : Nat × LoopState), s.i ≤ n → s.i = sentCount outcomes s.attempts →
    runLoop fuel n outcomes s = some r →
    r.1 = 0 ∧ r.2.i = n ∧ sentCount outcomes r.2.attempts = n ∧ s.attempts ≤ r.2.attempts ∧
      r.2.attempts < s.attempts + fuel := by
  intro fuel
  induction fuel with
  | zero => intro s r _ _ h; simp [runLoop] at h
  | succ fuel ih =>
    intro s r hle hinv h
    simp only [runLoop] at h
    by_cases hlt : s.i < n
    · simp only [hlt, if_true] at h
      obtain ⟨h1, h2⟩ := loopStep_sentCount outcomes s hinv
      have hle2 : (loopStep s (outcomes s.attempts)).i ≤ n := by
        cases ho : outcomes s.attempts <;> simp [loopStep] <;> omega
      obtain ⟨a, b, c, d, e⟩ := ih _ r hle2 h1 h
      exact ⟨a, b, c, by omega, by omega⟩
    · simp only [hlt, if_false, Option.some.injEq] at h
      subst h
      exact ⟨rfl, by simp; omega, by simp; rw [← hinv]; omega, by simp, by simp⟩

/-- The run loop returns once the outcomes hold enough successful passes. -/
theorem runLoop_returns (n : Nat) (outcomes : Nat → Outcome) : ∀ (d : Nat) (s : LoopState),
    s.i = sentCount outcomes s.attempts → n ≤ sentCount outcomes (s.attempts + d) →
    ∃ r, runLoop (d + 1) n outcomes s = some r := by
  intro d
  induction d with
  | zero =>
    intro s hinv hn
    have : ¬ s.i < n := by simp at hn; omega
    exact ⟨(0, s), by simp [runLoop, this]⟩
  | succ d ih =>
    intro s hinv hn
    by_cases hlt : s.i < n
    · obtain ⟨h1, h2⟩ := loopStep_sentCount outcomes s hinv
      obtain ⟨r, hr⟩ := ih (loopStep s (outcomes s.attempts)) h1
        (by rw [h2]; rw [show s.attempts + 1 + d = s.attempts + (d + 1) by omega]; exact hn)
      exact ⟨r, by rw [runLoop]; simp only [hlt, if_true]; exact hr⟩
    · exact ⟨(0, s), by rw [runLoop]; simp only [hlt, if_false]⟩

/-- While the run loop is running, no earlier pass count already holds the
successes asked for: when it returns, every smaller pass count has fewer than
`n` successes. -/
theorem runLoop_minimal (n : Nat) (outcomes : Nat → Outcome) : ∀ (fuel : Nat) (s : LoopState)
    (r : Nat × LoopState), s.i = sentCount outcomes s.attempts →
    (∀ k, k < s.attempts → sentCount outcomes k < n) →
    runLoop fuel n outcomes s = some r →
    ∀ k, k < r.2.attempts → sentCount outcomes k < n := by
  intro fuel
  induction fuel with
  | zero => intro s r _ _ h; simp [runLoop] at h
  | succ fuel ih =>
    intro s r hinv hmin h
    simp only [runLoop] at h
    by_cases hlt : s.i < n
    · simp only [hlt, if_true] at h
      obtain ⟨h1, h2⟩ := loopStep_sentCount outcomes s hinv
      refine ih _ r h1 ?_ h
      intro k hk
      rw [h2] at hk
      by_cases hk2 : k < s.attempts
      · exact hmin k hk2
      · have hk3 : k = s.attempts := by omega
        rw [hk3, ← hinv]
        exact hlt
    · simp only [hlt, if_false, Option.some.injEq] at h
      subst h
      exact hmin

/-- Claim C9, as amended. Only a successful transmission consumes an attempt.
For every attempt count `n` and every sequence of per-pass outcomes the run
loop terminates exactly when the outcomes contain `n` successful
transmissions, and then within one loop test more than any pass count holding
`n` successes. It exits with status 0 after exactly the number of passes it
takes to reach the `n`-th success: the first `attempts` passes hold `n`
successes and no smaller number of passes does; that number is at least `n`.
With fewer than `n` successes it never terminates. -/
theorem runLoop_terminates_iff (n : Nat) (outcomes : Nat → Outcome) :
    ((∃ fuel r, runLoop fuel n outcomes ⟨0, 0⟩ = some r) ↔ ∃ k, n ≤ sentCount outcomes k) ∧
    (∀ fuel r, runLoop fuel n outcomes ⟨0, 0⟩ = some r →
      r.1 = 0 ∧ r.2.i = n ∧ sentCount outcomes r.2.attempts = n ∧ n ≤ r.2.attempts ∧
      (∀ k, k < r.2.attempts → sentCount outcomes k < n) ∧ r.2.attempts < fuel) ∧
    (∀ k, n ≤ sentCount outcomes k → ∃ r, runLoop (k + 1) n outcomes ⟨0, 0⟩ = some r) := by
  have hres : ∀ fuel r, runLoop fuel n outcomes ⟨0, 0⟩ = some r →
      r.1 = 0 ∧ r.2.i = n ∧ sentCount outcomes r.2.attempts = n ∧ n ≤ r.2.attempts ∧
      (∀ k, k < r.2.attempts → sentCount outcomes k < n) ∧ r.2.attempts < fuel := by
    intro fuel r h
    obtain ⟨a, b, c, -, e⟩ := runLoop_result n outcomes fuel ⟨0, 0⟩ r (Nat.zero_le _) rfl h
    have hmin := runLoop_minimal n outcomes fuel ⟨0, 0⟩ r rfl
      (fun k hk => absurd hk (Nat.not_lt_zero k)) h
    have := sentCount_le outcomes r.2.attempts
    exact ⟨a, b, c, by omega, hmin, by simpa using e⟩
  have hret : ∀ k, n ≤ sentCount outcomes k →
      ∃ r, runLoop (k + 1) n outcomes ⟨0, 0⟩ = some r := by
    intro k hk
    exact runLoop_returns n outcomes k ⟨0, 0⟩ rfl (by simpa using hk)
  refine ⟨⟨?_, ?_⟩, hres, hret⟩
  · rintro ⟨fuel, r, h⟩
    exact ⟨r.2.attempts, by rw [(hres fuel r h).2.2.1]⟩
  · rintro ⟨k, hk⟩
    obtain ⟨r, hr⟩ := hret k hk
    exact ⟨k + 1, r, hr⟩

/-- Claim C9 as stated fails: with one attempt asked for and every
transmission failing, the run loop never returns; and with a single failure
before a success it has made two passes, more than the one attempt asked
for, when it exits. -/
theorem runLoop_retries_without_bound :
    (¬ ∃ fuel r, runLoop fuel 1 (fun _ => Outcome.sendFailed) ⟨0, 0⟩ = some r) ∧
    runLoop 3 1 (fun k => if k = 0 then Outcome.sendFailed else Outcome.sent) ⟨0, 0⟩ =
      some (0, ⟨1, 2⟩) := by
  constructor
  · rintro ⟨fuel, r, h⟩
    obtain ⟨-, -, h3, -, -⟩ := runLoop_result 1 (fun _ => Outcome.sendFailed) fuel ⟨0, 0⟩ r
      (Nat.zero_le _) rfl h
    have hz : ∀ k, sentCount (fun _ => Outcome.sendFailed) k = 0 := by
      intro k
      induction k with
      | zero => rfl
      | succ k ih => simp [sentCount, ih]
    rw [hz] at h3
    omega
  · decide

end Rig
